import Mathlib

/-
Verification of the SSTMap C extension module (src/sstmap/_sstmap_ext.c)
against its natural-language specification.

Shallow embedding conventions:
- C doubles and floats are modelled as exact rationals (ℚ).  The numeric
  literals of the source (10000, 9999, 3, 0.5, -1.5, 3.141592653589793,
  6.283185307179586, 0.0019872041, 0.5772156649) are exact decimal
  rationals.
- The transcendental library functions cos, acos, sqrt and log have no
  exact rational counterpart; they are passed as explicit function
  parameters (cs, ac, sq, lg : ℚ → ℚ) to the definitions that use them.
  All control flow, comparisons, accumulator updates and index arithmetic
  are embedded exactly as in the source.
- numpy arrays are modelled as total functions from indices to ℚ; the
  in-place mutations of the voxel table are explicit functional updates
  threaded through folds in the source's iteration order.
- C casts (int)x of a nonnegative double are Int.toNat ∘ Int.floor, which
  agrees with C truncation toward zero for the nonnegative counts used by
  the loops (and gives an empty loop for negative values, as C's
  `n0 < (int) nw_total` guard does).
- The printf-only running totals of getNNTrEntropy (dTSt, dTSs, dTSo,
  nwts, nwtt, dTStranstot, dTSorienttot) never flow into the returned
  voxel table and are omitted from the state.
-/

namespace SSTMap

/-- Functional update of one cell of the voxel table (models one in-place
array store `voxel_data[v][c] = q`). -/
def updTbl (t : ℕ → ℕ → ℚ) (v c : ℕ) (q : ℚ) : ℕ → ℕ → ℚ :=
  fun v' c' => if v' = v ∧ c' = c then q else t v' c'

/-- Functional update modelling an in-place accumulation
`voxel_data[v][c] += q`. -/
def addTbl (t : ℕ → ℕ → ℚ) (v c : ℕ) (q : ℚ) : ℕ → ℕ → ℚ :=
  updTbl t v c (t v c + q)

/-- Embeds `dist_squared` (non-periodic squared Euclidean distance). -/
def dist_squared (x1 x2 x3 y1 y2 y3 : ℚ) : ℚ :=
  (x1 - y1) ^ 2 + (x2 - y2) ^ 2 + (x3 - y3) ^ 2

/-- One axis of the orthorhombic minimum-image wrap used by
`dist_mic_squared`: if the raw difference exceeds half the box length the
full box length is subtracted, if it is below minus half the box length
the full box length is added. -/
def wrapAxis (d b : ℚ) : ℚ :=
  if d > b / 2 then d - b else if d < -(b / 2) then d + b else d

/-- Embeds `dist_mic_squared` (orthorhombic minimum-image squared
distance, single axis-wise wrap). -/
def dist_mic_squared (x1 x2 x3 y1 y2 y3 b1 b2 b3 : ℚ) : ℚ :=
  let dx := wrapAxis (x1 - y1) b1
  let dy := wrapAxis (x2 - y2) b2
  let dz := wrapAxis (x3 - y3) b3
  dx * dx + dy * dy + dz * dz

/-- Embeds `matrix_vector_product` (3x3 row-major matrix, flat 9-entry
array, applied to a 3-vector). -/
def matrixVecProd (m : ℕ → ℚ) (v0 v1 v2 : ℚ) : ℚ × ℚ × ℚ :=
  (m 0 * v0 + m 1 * v1 + m 2 * v2,
   m 3 * v0 + m 4 * v1 + m 5 * v2,
   m 6 * v0 + m 7 * v1 + m 8 * v2)

/-- Embeds `dist_mic_tric_squared` (27-image brute-force minimum-image
squared distance for triclinic cells): both points are mapped to
fractional coordinates by the supplied inverse cell matrix, wrapped into
the base cell by subtracting the floor, mapped back to real space, and
the minimum squared distance over the 27 images of the second point
(fractional offsets in {-1,0,1} on each axis) is returned.  The fold
mirrors the source's triple loop, seeded with the unshifted image and
accepting a new image on `t <= acc`. -/
def dist_mic_tric_squared (x1 x2 x3 y1 y2 y3 : ℚ) (uc inv_uc : ℕ → ℚ) : ℚ :=
  let xf := matrixVecProd inv_uc x1 x2 x3
  let yf := matrixVecProd inv_uc y1 y2 y3
  let xf0 := xf.1 - ⌊xf.1⌋
  let xf1 := xf.2.1 - ⌊xf.2.1⌋
  let xf2 := xf.2.2 - ⌊xf.2.2⌋
  let yf0 := yf.1 - ⌊yf.1⌋
  let yf1 := yf.2.1 - ⌊yf.2.1⌋
  let yf2 := yf.2.2 - ⌊yf.2.2⌋
  let xr := matrixVecProd uc xf0 xf1 xf2
  let yr := matrixVecProd uc yf0 yf1 yf2
  let n0 := (xr.1 - yr.1) ^ 2 + (xr.2.1 - yr.2.1) ^ 2 + (xr.2.2 - yr.2.2) ^ 2
  (([-1, 0, 1] : List ℚ)).foldl (fun acc i =>
    (([-1, 0, 1] : List ℚ)).foldl (fun acc j =>
      (([-1, 0, 1] : List ℚ)).foldl (fun acc k =>
        let yr' := matrixVecProd uc (yf0 + i) (yf1 + j) (yf2 + k)
        let t := (xr.1 - yr'.1) ^ 2 + (xr.2.1 - yr'.2.1) ^ 2 + (xr.2.2 - yr'.2.2) ^ 2
        if t ≤ acc then t else acc) acc) acc) n0

lemma wrapAxis_neg (d b : ℚ) (hb : 0 ≤ b) : wrapAxis (-d) b = -wrapAxis d b := by
  unfold wrapAxis
  rcases lt_trichotomy d (b / 2) with h | h | h <;>
    rcases lt_trichotomy d (-(b / 2)) with h' | h' | h' <;>
    split_ifs <;> linarith

/-- Diagonal 3x3 cell matrix in the flat row-major layout used by the C
code (entries 0, 4, 8 on the diagonal, all off-diagonal entries zero). -/
def diagM (a b c : ℚ) : ℕ → ℚ
  | 0 => a
  | 4 => b
  | 8 => c
  | _ => 0

lemma diagM_0 (a b c : ℚ) : diagM a b c 0 = a := rfl
lemma diagM_1 (a b c : ℚ) : diagM a b c 1 = 0 := rfl
lemma diagM_2 (a b c : ℚ) : diagM a b c 2 = 0 := rfl
lemma diagM_3 (a b c : ℚ) : diagM a b c 3 = 0 := rfl
lemma diagM_4 (a b c : ℚ) : diagM a b c 4 = b := rfl
lemma diagM_5 (a b c : ℚ) : diagM a b c 5 = 0 := rfl
lemma diagM_6 (a b c : ℚ) : diagM a b c 6 = 0 := rfl
lemma diagM_7 (a b c : ℚ) : diagM a b c 7 = 0 := rfl
lemma diagM_8 (a b c : ℚ) : diagM a b c 8 = c := rfl

/-- Helper: the nested 27-image minimisation of `dist_mic_tric_squared`
over a separable candidate function. -/
def triMin (f g h : ℚ → ℚ) (init : ℚ) : ℚ :=
  (([-1, 0, 1] : List ℚ)).foldl (fun acc i =>
    (([-1, 0, 1] : List ℚ)).foldl (fun acc j =>
      (([-1, 0, 1] : List ℚ)).foldl (fun acc k =>
        if f i + g j + h k ≤ acc then f i + g j + h k else acc) acc) acc) init

lemma foldl_le_init {α : Type} (s : ℚ → α → ℚ) (hc : ∀ a x, s a x ≤ a) :
    ∀ (L : List α) (a : ℚ), L.foldl s a ≤ a := by
  intro L
  induction L with
  | nil => intro a; exact le_rfl
  | cons y L ih => intro a; exact le_trans (ih (s a y)) (hc a y)

lemma foldl_le_val {α : Type} (s : ℚ → α → ℚ) (g : α → ℚ)
    (hc : ∀ a x, s a x ≤ a) (hg : ∀ a x, s a x ≤ g x) :
    ∀ (L : List α) (a : ℚ) (x : α), x ∈ L → L.foldl s a ≤ g x := by
  intro L
  induction L with
  | nil => intro a x hx; cases hx
  | cons y L ih =>
      intro a x hx
      rcases List.mem_cons.mp hx with rfl | hx
      · exact le_trans (foldl_le_init s hc L (s a x)) (hg a x)
      · exact ih (s a y) x hx

lemma foldl_init_or {α : Type} (s : ℚ → α → ℚ) (Q : ℚ → Prop) :
    ∀ (L : List α), (∀ a x, x ∈ L → s a x = a ∨ Q (s a x)) →
      ∀ a : ℚ, L.foldl s a = a ∨ Q (L.foldl s a) := by
  intro L
  induction L with
  | nil => intro _ a; exact Or.inl rfl
  | cons y L ih =>
      intro he a
      have hstep := he a y (List.mem_cons_self y L)
      have hrest := ih (fun a x hx => he a x (List.mem_cons_of_mem y hx)) (s a y)
      rcases hrest with h | h
      · rw [List.foldl_cons, h]; exact hstep
      · exact Or.inr h

lemma mem_pm1 {q : ℚ} (hq : q = -1 ∨ q = 0 ∨ q = 1) :
    q ∈ ([-1, 0, 1] : List ℚ) := by
  rcases hq with rfl | rfl | rfl <;> simp

lemma triMin_le_cand (f g h : ℚ → ℚ) (init : ℚ) (i j k : ℚ)
    (hi : i = -1 ∨ i = 0 ∨ i = 1) (hj : j = -1 ∨ j = 0 ∨ j = 1)
    (hk : k = -1 ∨ k = 0 ∨ k = 1) :
    triMin f g h init ≤ f i + g j + h k := by
  have hcK : ∀ (i' j' : ℚ) (a : ℚ) (k' : ℚ),
      (if f i' + g j' + h k' ≤ a then f i' + g j' + h k' else a) ≤ a := by
    intro i' j' a k'; split <;> simp_all
  have hgK : ∀ (i' j' : ℚ) (a : ℚ) (k' : ℚ),
      (if f i' + g j' + h k' ≤ a then f i' + g j' + h k' else a)
        ≤ f i' + g j' + h k' := by
    intro i' j' a k'; split
    · exact le_rfl
    · linarith [lt_of_not_le (by assumption : ¬(f i' + g j' + h k' ≤ a))]
  have hcJ : ∀ (i' : ℚ) (a : ℚ) (j' : ℚ),
      (([-1, 0, 1] : List ℚ)).foldl (fun acc k' =>
        if f i' + g j' + h k' ≤ acc then f i' + g j' + h k' else acc) a ≤ a :=
    fun i' a j' => foldl_le_init _ (hcK i' j') _ a
  have hgJ : ∀ (i' : ℚ) (a : ℚ) (j' : ℚ),
      (([-1, 0, 1] : List ℚ)).foldl (fun acc k' =>
        if f i' + g j' + h k' ≤ acc then f i' + g j' + h k' else acc) a
        ≤ f i' + g j' + h k :=
    fun i' a j' => foldl_le_val _ _ (hcK i' j') (hgK i' j') _ a k (mem_pm1 hk)
  have hcI : ∀ (a : ℚ) (i' : ℚ),
      (([-1, 0, 1] : List ℚ)).foldl (fun acc j' =>
        (([-1, 0, 1] : List ℚ)).foldl (fun acc k' =>
          if f i' + g j' + h k' ≤ acc then f i' + g j' + h k' else acc) acc) a
        ≤ a :=
    fun a i' => foldl_le_init _ (fun a' j' => hcJ i' a' j') _ a
  have hgI : ∀ (a : ℚ) (i' : ℚ),
      (([-1, 0, 1] : List ℚ)).foldl (fun acc j' =>
        (([-1, 0, 1] : List ℚ)).foldl (fun acc k' =>
          if f i' + g j' + h k' ≤ acc then f i' + g j' + h k' else acc) acc) a
        ≤ f i' + g j + h k :=
    fun a i' => foldl_le_val _ _ (fun a' j' => hcJ i' a' j')
      (fun a' j' => hgJ i' a' j') _ a j (mem_pm1 hj)
  exact foldl_le_val _ _ hcI hgI _ init i (mem_pm1 hi)

lemma triMin_cases (f g h : ℚ → ℚ) (init : ℚ) :
    triMin f g h init = init ∨
      ∃ i j k : ℚ, (i = -1 ∨ i = 0 ∨ i = 1) ∧ (j = -1 ∨ j = 0 ∨ j = 1) ∧
        (k = -1 ∨ k = 0 ∨ k = 1) ∧ triMin f g h init = f i + g j + h k := by
  have hmem : ∀ q : ℚ, q ∈ ([-1, 0, 1] : List ℚ) → q = -1 ∨ q = 0 ∨ q = 1 := by
    intro q hq; simpa using hq
  set Q : ℚ → Prop := fun z =>
    ∃ i j k : ℚ, (i = -1 ∨ i = 0 ∨ i = 1) ∧ (j = -1 ∨ j = 0 ∨ j = 1) ∧
      (k = -1 ∨ k = 0 ∨ k = 1) ∧ z = f i + g j + h k with hQdef
  have hK : ∀ (i' j' : ℚ), i' ∈ ([-1, 0, 1] : List ℚ) →
      j' ∈ ([-1, 0, 1] : List ℚ) → ∀ a : ℚ,
      (([-1, 0, 1] : List ℚ)).foldl (fun acc k' =>
        if f i' + g j' + h k' ≤ acc then f i' + g j' + h k' else acc) a = a ∨
      Q ((([-1, 0, 1] : List ℚ)).foldl (fun acc k' =>
        if f i' + g j' + h k' ≤ acc then f i' + g j' + h k' else acc) a) := by
    intro i' j' hi' hj' a
    refine foldl_init_or _ Q _ (fun a' k' hk' => ?_) a
    by_cases hle : f i' + g j' + h k' ≤ a'
    · exact Or.inr ⟨i', j', k', hmem _ hi', hmem _ hj', hmem _ hk', by simp [hle]⟩
    · exact Or.inl (by simp [hle])
  have hJ : ∀ i' : ℚ, i' ∈ ([-1, 0, 1] : List ℚ) → ∀ a : ℚ,
      (([-1, 0, 1] : List ℚ)).foldl (fun acc j' =>
        (([-1, 0, 1] : List ℚ)).foldl (fun acc k' =>
          if f i' + g j' + h k' ≤ acc then f i' + g j' + h k' else acc) acc) a
        = a ∨
      Q ((([-1, 0, 1] : List ℚ)).foldl (fun acc j' =>
        (([-1, 0, 1] : List ℚ)).foldl (fun acc k' =>
          if f i' + g j' + h k' ≤ acc then f i' + g j' + h k' else acc) acc) a) := by
    intro i' hi' a
    exact foldl_init_or _ Q _ (fun a' j' hj' => hK i' j' hi' hj' a') a
  exact foldl_init_or _ Q _ (fun a' i' hi' => hJ i' hi' a') init

lemma wrapAxis_spec (d b : ℚ) (hb : 0 < b) (hd : |d| ≤ 3 * b / 2) :
    ∃ e : ℤ, (e = -1 ∨ e = 0 ∨ e = 1) ∧ wrapAxis d b = d - e * b ∧
      |wrapAxis d b| ≤ b / 2 := by
  rw [abs_le] at hd
  unfold wrapAxis
  split_ifs with h1 h2
  · exact ⟨1, Or.inr (Or.inr rfl), by push_cast; ring,
      by rw [abs_le]; constructor <;> linarith⟩
  · exact ⟨-1, Or.inl rfl, by push_cast; ring,
      by rw [abs_le]; constructor <;> linarith⟩
  · exact ⟨0, Or.inr (Or.inl rfl), by push_cast; ring,
      by rw [abs_le]; constructor <;> linarith⟩

lemma sq_le_shift (w b c : ℚ) (hb : 0 < b) (h1 : -(b / 2) ≤ w)
    (h2 : w ≤ b / 2)
    (hc : c = -2 ∨ c = -1 ∨ c = 0 ∨ c = 1 ∨ c = 2) :
    w ^ 2 ≤ (w + c * b) ^ 2 := by
  rcases hc with rfl | rfl | rfl | rfl | rfl
  · nlinarith [mul_nonneg hb.le (by linarith : (0:ℚ) ≤ b - w)]
  · nlinarith [mul_nonneg hb.le (by linarith : (0:ℚ) ≤ b / 2 - w)]
  · nlinarith
  · nlinarith [mul_nonneg hb.le (by linarith : (0:ℚ) ≤ w + b / 2)]
  · nlinarith [mul_nonneg hb.le (by linarith : (0:ℚ) ≤ w + b)]

lemma axis_candidates (b x y : ℚ) (hb : 0 < b) (hd : |x - y| ≤ 3 * b / 2) :
    (∀ k : ℚ, (k = -1 ∨ k = 0 ∨ k = 1) →
      wrapAxis (x - y) b ^ 2
        ≤ (b * (b⁻¹ * x - ⌊b⁻¹ * x⌋) - b * ((b⁻¹ * y - ⌊b⁻¹ * y⌋) + k)) ^ 2) ∧
    (∃ k : ℚ, (k = -1 ∨ k = 0 ∨ k = 1) ∧
      (b * (b⁻¹ * x - ⌊b⁻¹ * x⌋) - b * ((b⁻¹ * y - ⌊b⁻¹ * y⌋) + k)) ^ 2
        = wrapAxis (x - y) b ^ 2) := by
  obtain ⟨e, he, hwe, hwb⟩ := wrapAxis_spec (x - y) b hb hd
  set w := wrapAxis (x - y) b with hw
  have hbne : b ≠ 0 := ne_of_gt hb
  have hux : b * (b⁻¹ * x - ⌊b⁻¹ * x⌋) = x - b * ⌊b⁻¹ * x⌋ := by field_simp
  have huy : b * (b⁻¹ * y - ⌊b⁻¹ * y⌋) = y - b * ⌊b⁻¹ * y⌋ := by field_simp
  set D := b * (b⁻¹ * x - ⌊b⁻¹ * x⌋) - b * (b⁻¹ * y - ⌊b⁻¹ * y⌋) with hD
  have hDval : D = (x - y) - b * ((⌊b⁻¹ * x⌋ : ℚ) - (⌊b⁻¹ * y⌋ : ℚ)) := by
    rw [hD, hux, huy]; ring
  have hfr1 : 0 ≤ b⁻¹ * x - ⌊b⁻¹ * x⌋ := by
    have := Int.fract_nonneg (b⁻¹ * x); rwa [Int.fract] at this
  have hfr2 : b⁻¹ * x - ⌊b⁻¹ * x⌋ < 1 := by
    have := Int.fract_lt_one (b⁻¹ * x); rwa [Int.fract] at this
  have hfr3 : 0 ≤ b⁻¹ * y - ⌊b⁻¹ * y⌋ := by
    have := Int.fract_nonneg (b⁻¹ * y); rwa [Int.fract] at this
  have hfr4 : b⁻¹ * y - ⌊b⁻¹ * y⌋ < 1 := by
    have := Int.fract_lt_one (b⁻¹ * y); rwa [Int.fract] at this
  have hDlt : D < b := by rw [hD]; nlinarith
  have hDgt : -b < D := by rw [hD]; nlinarith
  set j : ℤ := e - (⌊b⁻¹ * x⌋ - ⌊b⁻¹ * y⌋) with hj
  have hDw : D - w = ((j : ℚ) - 0) * b := by
    rw [hDval, hwe, hj]; push_cast; ring
  clear_value w D
  rw [abs_le] at hwb
  have hbj1 : ((j : ℚ) - 0) * b < 3 / 2 * b := by
    rw [← hDw]; linarith [hwb.1, hDlt]
  have hbj2 : (-(3 / 2) : ℚ) * b < ((j : ℚ) - 0) * b := by
    rw [← hDw]; linarith [hwb.2, hDgt]
  have hjq1 : (j : ℚ) < 3 / 2 := by nlinarith
  have hjq2 : (-(3 / 2) : ℚ) < (j : ℚ) := by nlinarith
  have hjint : j = -1 ∨ j = 0 ∨ j = 1 := by
    have hc1 : ((j : ℚ) < 2) := by linarith
    have hc2 : ((-2 : ℚ) < (j : ℚ)) := by linarith
    have hc1' : j < 2 := by exact_mod_cast hc1
    have hc2' : (-2 : ℤ) < j := by exact_mod_cast hc2
    omega
  have hDwj : D = w + ((j : ℚ)) * b := by
    have := hDw; push_cast at this ⊢; linarith
  constructor
  · intro k hk
    have hcand : b * (b⁻¹ * x - ⌊b⁻¹ * x⌋) - b * ((b⁻¹ * y - ⌊b⁻¹ * y⌋) + k)
        = w + ((j : ℚ) - k) * b := by
      have hc1 : b * (b⁻¹ * x - ⌊b⁻¹ * x⌋) - b * ((b⁻¹ * y - ⌊b⁻¹ * y⌋) + k)
          = D - k * b := by rw [hD]; ring
      rw [hc1, hDwj]; ring
    rw [hcand]
    have hc : (j : ℚ) - k = -2 ∨ (j : ℚ) - k = -1 ∨ (j : ℚ) - k = 0 ∨
        (j : ℚ) - k = 1 ∨ (j : ℚ) - k = 2 := by
      rcases hjint with h | h | h <;> rcases hk with rfl | rfl | rfl <;>
        rw [h] <;> norm_num
    exact sq_le_shift w b _ hb hwb.1 hwb.2 hc
  · refine ⟨(j : ℚ), ?_, ?_⟩
    · rcases hjint with h | h | h <;> rw [h] <;> norm_num
    · have hcand : b * (b⁻¹ * x - ⌊b⁻¹ * x⌋) - b * ((b⁻¹ * y - ⌊b⁻¹ * y⌋) + (j : ℚ))
          = w := by
        have hc1 : b * (b⁻¹ * x - ⌊b⁻¹ * x⌋) - b * ((b⁻¹ * y - ⌊b⁻¹ * y⌋) + (j : ℚ))
            = D - (j : ℚ) * b := by rw [hD]; ring
        rw [hc1, hDwj]; ring
      rw [hcand]

lemma triMin_eq_of_axes (f g h : ℚ → ℚ) (init w1 w2 w3 : ℚ)
    (hf : ∀ k : ℚ, (k = -1 ∨ k = 0 ∨ k = 1) → w1 ≤ f k)
    (hg : ∀ k : ℚ, (k = -1 ∨ k = 0 ∨ k = 1) → w2 ≤ g k)
    (hh : ∀ k : ℚ, (k = -1 ∨ k = 0 ∨ k = 1) → w3 ≤ h k)
    (hf' : ∃ k : ℚ, (k = -1 ∨ k = 0 ∨ k = 1) ∧ f k = w1)
    (hg' : ∃ k : ℚ, (k = -1 ∨ k = 0 ∨ k = 1) ∧ g k = w2)
    (hh' : ∃ k : ℚ, (k = -1 ∨ k = 0 ∨ k = 1) ∧ h k = w3)
    (hinit : init = f 0 + g 0 + h 0) :
    triMin f g h init = w1 + w2 + w3 := by
  obtain ⟨k1, hk1, he1⟩ := hf'
  obtain ⟨k2, hk2, he2⟩ := hg'
  obtain ⟨k3, hk3, he3⟩ := hh'
  apply le_antisymm
  · calc triMin f g h init ≤ f k1 + g k2 + h k3 :=
          triMin_le_cand f g h init k1 k2 k3 hk1 hk2 hk3
      _ = w1 + w2 + w3 := by rw [he1, he2, he3]
  · rcases triMin_cases f g h init with hc | ⟨i, j, k, hi, hj, hk, hc⟩
    · rw [hc, hinit]
      have e1 := hf 0 (Or.inr (Or.inl rfl))
      have e2 := hg 0 (Or.inr (Or.inl rfl))
      have e3 := hh 0 (Or.inr (Or.inl rfl))
      linarith
    · rw [hc]
      have e1 := hf i hi
      have e2 := hg j hj
      have e3 := hh k hk
      linarith

lemma tric_as_triMin (b1 b2 b3 x1 x2 x3 y1 y2 y3 : ℚ) :
    dist_mic_tric_squared x1 x2 x3 y1 y2 y3 (diagM b1 b2 b3)
        (diagM b1⁻¹ b2⁻¹ b3⁻¹)
      = triMin
          (fun i => (b1 * (b1⁻¹ * x1 - ⌊b1⁻¹ * x1⌋)
            - b1 * ((b1⁻¹ * y1 - ⌊b1⁻¹ * y1⌋) + i)) ^ 2)
          (fun j => (b2 * (b2⁻¹ * x2 - ⌊b2⁻¹ * x2⌋)
            - b2 * ((b2⁻¹ * y2 - ⌊b2⁻¹ * y2⌋) + j)) ^ 2)
          (fun k => (b3 * (b3⁻¹ * x3 - ⌊b3⁻¹ * x3⌋)
            - b3 * ((b3⁻¹ * y3 - ⌊b3⁻¹ * y3⌋) + k)) ^ 2)
          ((b1 * (b1⁻¹ * x1 - ⌊b1⁻¹ * x1⌋) - b1 * (b1⁻¹ * y1 - ⌊b1⁻¹ * y1⌋)) ^ 2
            + (b2 * (b2⁻¹ * x2 - ⌊b2⁻¹ * x2⌋) - b2 * (b2⁻¹ * y2 - ⌊b2⁻¹ * y2⌋)) ^ 2
            + (b3 * (b3⁻¹ * x3 - ⌊b3⁻¹ * x3⌋)
              - b3 * (b3⁻¹ * y3 - ⌊b3⁻¹ * y3⌋)) ^ 2) := by
  unfold dist_mic_tric_squared triMin
  simp only [matrixVecProd, diagM, zero_mul, mul_zero, add_zero, zero_add]

lemma dist_mic_squared_as_wrap (x1 x2 x3 y1 y2 y3 b1 b2 b3 : ℚ) :
    dist_mic_squared x1 x2 x3 y1 y2 y3 b1 b2 b3
      = wrapAxis (x1 - y1) b1 ^ 2 + wrapAxis (x2 - y2) b2 ^ 2
        + wrapAxis (x3 - y3) b3 ^ 2 := by
  unfold dist_mic_squared
  ring

/-- Counterexample to claim C7 as stated: with the diagonal unit cell of box
lengths (1,1,1) and the points (0,0,0) and (2.6,0,0), the 27-image brute
force finds the true minimum image at squared distance 0.16, while the
orthorhombic closed form wraps only once and returns 2.56. -/
theorem c7_counterexample :
    dist_mic_tric_squared 0 0 0 (13/5) 0 0 (diagM 1 1 1) (diagM 1 1 1)
      ≠ dist_mic_squared 0 0 0 (13/5) 0 0 1 1 1 := by
  have h1 : dist_mic_tric_squared 0 0 0 (13/5) 0 0 (diagM 1 1 1) (diagM 1 1 1)
      = 4/25 := by
    norm_num [dist_mic_tric_squared, matrixVecProd, diagM_0, diagM_1, diagM_2,
      diagM_3, diagM_4, diagM_5, diagM_6, diagM_7, diagM_8, List.foldl]
  have h2 : dist_mic_squared 0 0 0 (13/5) 0 0 1 1 1 = 64/25 := by
    norm_num [dist_mic_squared, wrapAxis]
  rw [h1, h2]
  norm_num

/-- Claim C7 (amended): for a diagonal unit cell with positive box lengths,
given the exact inverse cell, the 27-image triclinic brute-force MIC
squared distance agrees with the orthorhombic closed form whenever the
two points differ by at most 3/2 of the box length on each axis (beyond
that the single wrap of the closed form no longer reaches the minimum
image, see the counterexample). -/
theorem c7_tric_diag_eq_ortho (b1 b2 b3 : ℚ) (h1 : 0 < b1) (h2 : 0 < b2)
    (h3 : 0 < b3) (x1 x2 x3 y1 y2 y3 : ℚ)
    (hd1 : |x1 - y1| ≤ 3 * b1 / 2) (hd2 : |x2 - y2| ≤ 3 * b2 / 2)
    (hd3 : |x3 - y3| ≤ 3 * b3 / 2) :
    dist_mic_tric_squared x1 x2 x3 y1 y2 y3 (diagM b1 b2 b3)
        (diagM b1⁻¹ b2⁻¹ b3⁻¹)
      = dist_mic_squared x1 x2 x3 y1 y2 y3 b1 b2 b3 := by
  obtain ⟨ax1, k1, hk1, hk1eq⟩ := axis_candidates b1 x1 y1 h1 hd1
  obtain ⟨ax2, k2, hk2, hk2eq⟩ := axis_candidates b2 x2 y2 h2 hd2
  obtain ⟨ax3, k3, hk3, hk3eq⟩ := axis_candidates b3 x3 y3 h3 hd3
  rw [tric_as_triMin, dist_mic_squared_as_wrap]
  refine triMin_eq_of_axes _ _ _ _ _ _ _ ?_ ?_ ?_ ?_ ?_ ?_ ?_
  · exact ax1
  · exact ax2
  · exact ax3
  · exact ⟨k1, hk1, hk1eq⟩
  · exact ⟨k2, hk2, hk2eq⟩
  · exact ⟨k3, hk3, hk3eq⟩
  · show _ = _ + _ + _
    ring

/-- Witness for the amended C7 theorem at a concrete input. -/
theorem c7_tric_diag_eq_ortho_witness :
    (0 : ℚ) < 1 ∧ |(3/5 : ℚ) - 0| ≤ 3 * 1 / 2 ∧
    dist_mic_tric_squared (3/5) 0 0 0 0 0 (diagM 1 1 1) (diagM 1⁻¹ 1⁻¹ 1⁻¹)
      = dist_mic_squared (3/5) 0 0 0 0 0 1 1 1 := by
  refine ⟨by norm_num, by norm_num [abs_le], ?_⟩
  exact c7_tric_diag_eq_ortho 1 1 1 (by norm_num) (by norm_num) (by norm_num)
    (3/5) 0 0 0 0 0 (by norm_num [abs_le]) (by norm_num [abs_le])
    (by norm_num [abs_le])

/-- Claim C8: the orthorhombic MIC squared distance is symmetric in its two
points and is invariant under translating both points by the same integer
multiple of any one of the three lattice vectors
(b1,0,0), (0,b2,0), (0,0,b3). -/
theorem c8_mic_symm_invariant (b1 b2 b3 : ℚ) (hb1 : 0 < b1) (hb2 : 0 < b2)
    (hb3 : 0 < b3) (x1 x2 x3 y1 y2 y3 : ℚ) :
    dist_mic_squared x1 x2 x3 y1 y2 y3 b1 b2 b3
      = dist_mic_squared y1 y2 y3 x1 x2 x3 b1 b2 b3 ∧
    (∀ k : ℤ,
      dist_mic_squared (x1 + k * b1) x2 x3 (y1 + k * b1) y2 y3 b1 b2 b3
        = dist_mic_squared x1 x2 x3 y1 y2 y3 b1 b2 b3 ∧
      dist_mic_squared x1 (x2 + k * b2) x3 y1 (y2 + k * b2) y3 b1 b2 b3
        = dist_mic_squared x1 x2 x3 y1 y2 y3 b1 b2 b3 ∧
      dist_mic_squared x1 x2 (x3 + k * b3) y1 y2 (y3 + k * b3) b1 b2 b3
        = dist_mic_squared x1 x2 x3 y1 y2 y3 b1 b2 b3) := by
  constructor
  · show wrapAxis (x1 - y1) b1 * wrapAxis (x1 - y1) b1 + _ + _ = _
    have e1 : y1 - x1 = -(x1 - y1) := by ring
    have e2 : y2 - x2 = -(x2 - y2) := by ring
    have e3 : y3 - x3 = -(x3 - y3) := by ring
    unfold dist_mic_squared
    rw [e1, e2, e3, wrapAxis_neg _ _ hb1.le, wrapAxis_neg _ _ hb2.le,
      wrapAxis_neg _ _ hb3.le]
    ring
  · intro k
    refine ⟨?_, ?_, ?_⟩ <;>
      · unfold dist_mic_squared
        norm_num [add_sub_add_right_eq_sub]

/-- Witness for C8 at a concrete input. -/
theorem c8_mic_symm_invariant_witness :
    (0 : ℚ) < 2 ∧
    (dist_mic_squared 1 0 0 (5/2) 0 0 2 2 2
        = dist_mic_squared (5/2) 0 0 1 0 0 2 2 2 ∧
     dist_mic_squared (1 + (3 : ℤ) * 2) 0 0 ((5/2) + (3 : ℤ) * 2) 0 0 2 2 2
        = dist_mic_squared 1 0 0 (5/2) 0 0 2 2 2) := by
  refine ⟨by norm_num, (c8_mic_symm_invariant 2 2 2 (by norm_num) (by norm_num)
    (by norm_num) 1 0 0 (5/2) 0 0).1, ?_⟩
  exact ((c8_mic_symm_invariant 2 2 2 (by norm_num) (by norm_num)
    (by norm_num) 1 0 0 (5/2) 0 0).2 3).1

/-- Embeds the per-coordinate decision of `_sstmap_ext_assign_voxels`:
the reference coordinate is translated by the grid origin, gated by the
box test (each translated axis at most the grid maximum and at least
-1.5), then by nonnegativity; the per-axis voxel index is the integer
truncation of the translated coordinate divided by the fixed voxel edge
0.5, and the flattened id (ix*ny + iy)*nz + iz is emitted only when every
index is strictly below its grid dimension.  `none` models "no
(voxelId, moleculeId) pair appended for this molecule".  Translated
coordinates are nonnegative on the truncating path, so C's
truncation-toward-zero cast is Int.floor. -/
def assign_voxels (gdx gdy gdz : ℕ) (gmx gmy gmz gox goy goz wx wy wz : ℚ) :
    Option ℕ :=
  let tx := wx - gox
  let ty := wy - goy
  let tz := wz - goz
  if tx ≤ gmx ∧ ty ≤ gmy ∧ tz ≤ gmz ∧ -1.5 ≤ tx ∧ -1.5 ≤ ty ∧ -1.5 ≤ tz then
    if 0 ≤ tx ∧ 0 ≤ ty ∧ 0 ≤ tz then
      let gix := (⌊tx / 0.5⌋).toNat
      let giy := (⌊ty / 0.5⌋).toNat
      let giz := (⌊tz / 0.5⌋).toNat
      if gix < gdx ∧ giy < gdy ∧ giz < gdz then
        some ((gix * gdy + giy) * gdz + giz)
      else none
    else none
  else none

/-- Claim C9: with a well-formed grid (positive dimensions, nonnegative
maximum extents, and maximum extent equal to dimension times the 0.5
voxel edge on the axis in question), (a) a coordinate translating exactly
to the origin is assigned flattened voxel id 0; (b) a coordinate whose
translated position equals the grid maximum exactly on some axis is
rejected; (c) a coordinate translating below -1.5 or above the grid
maximum on any axis is rejected. -/
theorem c9_assign_voxels (gdx gdy gdz : ℕ)
    (gmx gmy gmz gox goy goz wx wy wz : ℚ) :
    ((1 ≤ gdx ∧ 1 ≤ gdy ∧ 1 ≤ gdz) → (0 ≤ gmx ∧ 0 ≤ gmy ∧ 0 ≤ gmz) →
      wx - gox = 0 → wy - goy = 0 → wz - goz = 0 →
      assign_voxels gdx gdy gdz gmx gmy gmz gox goy goz wx wy wz = some 0) ∧
    (gmx = (gdx : ℚ) / 2 → wx - gox = gmx →
      assign_voxels gdx gdy gdz gmx gmy gmz gox goy goz wx wy wz = none) ∧
    (gmy = (gdy : ℚ) / 2 → wy - goy = gmy →
      assign_voxels gdx gdy gdz gmx gmy gmz gox goy goz wx wy wz = none) ∧
    (gmz = (gdz : ℚ) / 2 → wz - goz = gmz →
      assign_voxels gdx gdy gdz gmx gmy gmz gox goy goz wx wy wz = none) ∧
    (((wx - gox < -1.5 ∨ gmx < wx - gox) ∨ (wy - goy < -1.5 ∨ gmy < wy - goy) ∨
        (wz - goz < -1.5 ∨ gmz < wz - goz)) →
      assign_voxels gdx gdy gdz gmx gmy gmz gox goy goz wx wy wz = none) := by
  refine ⟨?_, ?_, ?_, ?_, ?_⟩
  · intro hd hm hx hy hz
    unfold assign_voxels
    rw [hx, hy, hz]
    have h0 : (⌊(0 : ℚ) / 0.5⌋).toNat = 0 := by norm_num
    rw [if_pos, if_pos, if_pos]
    · simp [h0]
    · refine ⟨?_, ?_, ?_⟩ <;> · rw [h0]; omega
    · norm_num
    · refine ⟨hm.1, hm.2.1, hm.2.2, by norm_num, by norm_num, by norm_num⟩
  · intro hgm ht
    simp only [assign_voxels]
    split_ifs with hA hB hC
    · exfalso
      have hfl : (⌊(wx - gox) / 0.5⌋).toNat = gdx := by
        rw [ht, hgm]
        have : ((gdx : ℚ) / 2) / 0.5 = (gdx : ℚ) := by
          norm_num
          ring
        rw [this, Int.floor_natCast, Int.toNat_natCast]
      rw [hfl] at hC
      omega
    · rfl
    · rfl
    · rfl
  · intro hgm ht
    simp only [assign_voxels]
    split_ifs with hA hB hC
    · exfalso
      have hfl : (⌊(wy - goy) / 0.5⌋).toNat = gdy := by
        rw [ht, hgm]
        have : ((gdy : ℚ) / 2) / 0.5 = (gdy : ℚ) := by
          norm_num
          ring
        rw [this, Int.floor_natCast, Int.toNat_natCast]
      rw [hfl] at hC
      omega
    · rfl
    · rfl
    · rfl
  · intro hgm ht
    simp only [assign_voxels]
    split_ifs with hA hB hC
    · exfalso
      have hfl : (⌊(wz - goz) / 0.5⌋).toNat = gdz := by
        rw [ht, hgm]
        have : ((gdz : ℚ) / 2) / 0.5 = (gdz : ℚ) := by
          norm_num
          ring
        rw [this, Int.floor_natCast, Int.toNat_natCast]
      rw [hfl] at hC
      omega
    · rfl
    · rfl
    · rfl
  · intro hviol
    unfold assign_voxels
    rw [if_neg]
    intro hgate
    rcases hviol with (h | h) | (h | h) | (h | h) <;>
      [exact absurd hgate.2.2.2.1 (by linarith);
       exact absurd hgate.1 (by linarith);
       exact absurd hgate.2.2.2.2.1 (by linarith);
       exact absurd hgate.2.1 (by linarith);
       exact absurd hgate.2.2.2.2.2 (by linarith);
       exact absurd hgate.2.2.1 (by linarith)]

/-- Witness for C9: a 2x2x2 grid with origin (0,0,0) and maximum (1,1,1);
the origin maps to voxel 0, a point at the maximum on the x axis is
rejected, and a point below the -1.5 tolerance is rejected. -/
theorem c9_assign_voxels_witness :
    assign_voxels 2 2 2 1 1 1 0 0 0 0 0 0 = some 0 ∧
    assign_voxels 2 2 2 1 1 1 0 0 0 1 0 0 = none ∧
    assign_voxels 2 2 2 1 1 1 0 0 0 (-2) 0 0 = none := by
  refine ⟨?_, ?_, ?_⟩
  · exact (c9_assign_voxels 2 2 2 1 1 1 0 0 0 0 0 0).1
      (by norm_num) (by norm_num) (by norm_num) (by norm_num) (by norm_num)
  · exact (c9_assign_voxels 2 2 2 1 1 1 0 0 0 1 0 0).2.1
      (by norm_num) (by norm_num)
  · exact (c9_assign_voxels 2 2 2 1 1 1 0 0 0 (-2) 0 0).2.2.2.2
      (Or.inl (Or.inl (by norm_num)))

/-- The four in-place arrays of `_sstmap_ext_calculate_energy`: the
squared-distance matrix, the charge-product matrix and the two
Lennard-Jones coefficient matrices, each indexed (solvent site, target
atom). -/
structure EnergyArrays where
  dist : ℕ → ℕ → ℚ
  chg : ℕ → ℕ → ℚ
  acoeff : ℕ → ℕ → ℚ
  bcoeff : ℕ → ℕ → ℚ

/-- Embeds `_sstmap_ext_calculate_energy`: for every (site i, target atom
j) pair with i below the site count, j below the atom count, and j not
equal to the molecule's first-site offset plus i (the self pair, skipped
by `continue`), the acoeff entry is overwritten with
acoeff*d12 - bcoeff*d6 and the chg entry is divided by sqrt of the
squared distance, with d_inv = 1/d, d6 = d_inv^3, d12 = d6^2 computed as
in the source.  Each cell is written at most once and only from its own
prior values, so the in-place double loop is represented pointwise; dist
and bcoeff are never written and pass through unchanged. -/
def calculate_energy (sq : ℚ → ℚ) (wat S T : ℕ) (ar : EnergyArrays) :
    EnergyArrays where
  dist := ar.dist
  bcoeff := ar.bcoeff
  acoeff := fun i j =>
    if i < S ∧ j < T ∧ wat + i ≠ j then
      let d_inv := 1 / ar.dist i j
      let d6 := d_inv * d_inv * d_inv
      let d12 := d6 * d6
      ar.acoeff i j * d12 - ar.bcoeff i j * d6
    else ar.acoeff i j
  chg := fun i j =>
    if i < S ∧ j < T ∧ wat + i ≠ j then
      ar.chg i j / sq (ar.dist i j)
    else ar.chg i j

/-- Claim C10: in the pairwise energy kernel, every in-range non-self
pair overwrites the A-coefficient entry with A*(1/d)^6 - B*(1/d)^3 (that
is, A*dinv12 - B*dinv6 in terms of the actual distance, d being the
supplied squared distance) and the charge entry with q divided by the
square root of d; the self pair j = wat + i is left unmodified in all
four arrays (dist and bcoeff are never modified at all); and with
A = 1, B = 0, q = 1, d = 1 (and sqrt 1 = 1) the Lennard-Jones slot
becomes 1 and the charge slot becomes 1. -/
theorem c10_calculate_energy (sq : ℚ → ℚ) (wat S T : ℕ) (ar : EnergyArrays) :
    (∀ i j, i < S → j < T → wat + i ≠ j →
      (calculate_energy sq wat S T ar).acoeff i j
          = ar.acoeff i j * (1 / ar.dist i j) ^ 6
            - ar.bcoeff i j * (1 / ar.dist i j) ^ 3 ∧
      (calculate_energy sq wat S T ar).chg i j
          = ar.chg i j / sq (ar.dist i j)) ∧
    (∀ i, (calculate_energy sq wat S T ar).acoeff i (wat + i)
          = ar.acoeff i (wat + i) ∧
      (calculate_energy sq wat S T ar).chg i (wat + i) = ar.chg i (wat + i)) ∧
    (calculate_energy sq wat S T ar).dist = ar.dist ∧
    (calculate_energy sq wat S T ar).bcoeff = ar.bcoeff ∧
    (∀ i j, i < S → j < T → wat + i ≠ j → sq 1 = 1 →
      ar.dist i j = 1 → ar.acoeff i j = 1 → ar.bcoeff i j = 0 →
      ar.chg i j = 1 →
      (calculate_energy sq wat S T ar).acoeff i j = 1 ∧
      (calculate_energy sq wat S T ar).chg i j = 1) := by
  refine ⟨?_, ?_, rfl, rfl, ?_⟩
  · intro i j hi hj hne
    constructor
    · show (if i < S ∧ j < T ∧ wat + i ≠ j then _ else _) = _
      rw [if_pos ⟨hi, hj, hne⟩]
      ring
    · show (if i < S ∧ j < T ∧ wat + i ≠ j then _ else _) = _
      rw [if_pos ⟨hi, hj, hne⟩]
  · intro i
    constructor
    · show (if i < S ∧ wat + i < T ∧ wat + i ≠ wat + i then _ else _) = _
      rw [if_neg (by simp)]
    · show (if i < S ∧ wat + i < T ∧ wat + i ≠ wat + i then _ else _) = _
      rw [if_neg (by simp)]
  · intro i j hi hj hne hsq hd ha hb hc
    constructor
    · show (if i < S ∧ j < T ∧ wat + i ≠ j then _ else _) = _
      rw [if_pos ⟨hi, hj, hne⟩, hd, ha, hb]
      norm_num
    · show (if i < S ∧ j < T ∧ wat + i ≠ j then _ else _) = _
      rw [if_pos ⟨hi, hj, hne⟩, hd, hc, hsq]
      norm_num

/-- Witness for C10: one solvent site against two target atoms with
offset 0, unit inputs on the non-self pair (0,1). -/
theorem c10_calculate_energy_witness :
    (calculate_energy (fun q => q) 0 1 2
        ⟨fun _ _ => 1, fun _ _ => 1, fun _ _ => 1, fun _ _ => 0⟩).acoeff 0 1
      = 1 ∧
    (calculate_energy (fun q => q) 0 1 2
        ⟨fun _ _ => 1, fun _ _ => 1, fun _ _ => 1, fun _ _ => 0⟩).chg 0 1
      = 1 := by
  exact (c10_calculate_energy (fun q => q) 0 1 2
      ⟨fun _ _ => 1, fun _ _ => 1, fun _ _ => 1, fun _ _ => 0⟩).2.2.2.2 0 1
    (by norm_num) (by norm_num) (by norm_num) rfl rfl rfl rfl rfl

/-- The exact value of the double-precision constant M_PI used by the C
code (the IEEE-754 double nearest to pi, 884279719003555 * 2^-48). -/
def mPI : ℚ := 884279719003555 / 281474976710656

/-- The constant `twopi = 2*M_PI` of `getNNOrEntropy` (exact, since
doubling a double is exact). -/
def twoPI : ℚ := 2 * mPI

/-- The azimuthal wrap of `getNNOrEntropy`: a raw angular difference
above M_PI is replaced by twopi minus it, one below -M_PI by twopi plus
it (the sign flip relative to a plain modular wrap is immaterial because
only the square is used). -/
def wrapAng (r : ℚ) : ℚ :=
  if r > mPI then twoPI - r else if r < -mPI then twoPI + r else r

/-- The angular separation between molecules n and l computed by
`getNNOrEntropy` from the Euler-angle array: cosine-transformed polar
component, two wrapped azimuthal components, Euclidean norm (sqrt of the
sum of squares). -/
def orDist (cs sq : ℚ → ℚ) (e : ℕ → ℕ → ℚ) (n l : ℕ) : ℚ :=
  let rx := cs (e l 0) - cs (e n 0)
  let ry := wrapAng (e l 1 - e n 1)
  let rz := wrapAng (e l 2 - e n 2)
  sq (rx * rx + ry * ry + rz * rz)

/-- The nearest-neighbour sentinel loop of `getNNOrEntropy` for reference
molecule n: NNor starts at 10000 and accepts a candidate exactly when it
is strictly positive and strictly smaller than the current best; the
partner index equal to n is skipped by `continue`. -/
def NNorMin (cs sq : ℚ → ℚ) (e : ℕ → ℕ → ℚ) (nwtot n : ℕ) : ℚ :=
  (List.range nwtot).foldl (fun NNor l =>
    if l = n then NNor
    else
      let dW := orDist cs sq e n l
      if dW > 0 ∧ dW < NNor then dW else NNor) 10000

/-- Embeds `_sstmap_ext_getNNOrEntropy`: for every reference molecule the
sentinel minimum is computed, and if it was updated (NNor < 9999 and
NNor > 0) the term log(nwtot*NNor^3/(3*twopi)) is accumulated into the
returned voxel sum. -/
def getNNOrEntropy (cs sq lg : ℚ → ℚ) (nwtot : ℕ) (e : ℕ → ℕ → ℚ) : ℚ :=
  (List.range nwtot).foldl (fun acc n =>
    let NNor := NNorMin cs sq e nwtot n
    if NNor < 9999 ∧ NNor > 0 then
      acc + lg (nwtot * NNor * NNor * NNor / (3 * twoPI))
    else acc) 0

lemma foldl_le_point {α : Type} (s : ℚ → α → ℚ) (g : α → ℚ)
    (hc : ∀ a x, s a x ≤ a) (x : α) (hgx : ∀ a, s a x ≤ g x) :
    ∀ (L : List α) (a : ℚ), x ∈ L → L.foldl s a ≤ g x := by
  intro L
  induction L with
  | nil => intro a hx; cases hx
  | cons y L ih =>
      intro a hx
      rcases List.mem_cons.mp hx with rfl | hx
      · exact le_trans (foldl_le_init s hc L (s a x)) (hgx a)
      · exact ih (s a y) hx

lemma NNorMin_step_contract (cs sq : ℚ → ℚ) (e : ℕ → ℕ → ℚ) (n : ℕ) :
    ∀ (a : ℚ) (l : ℕ),
      (if l = n then a
       else
         let dW := orDist cs sq e n l
         if dW > 0 ∧ dW < a then dW else a) ≤ a := by
  intro a l
  split
  · exact le_rfl
  · dsimp only
    split
    · next h => exact le_of_lt h.2
    · exact le_rfl

lemma NNorMin_le (cs sq : ℚ → ℚ) (e : ℕ → ℕ → ℚ) (nwtot n l : ℕ)
    (hl : l < nwtot) (hne : l ≠ n) (hpos : 0 < orDist cs sq e n l) :
    NNorMin cs sq e nwtot n ≤ orDist cs sq e n l := by
  refine foldl_le_point _ (fun l' => orDist cs sq e n l')
    (NNorMin_step_contract cs sq e n) l ?_ _ _ (List.mem_range.mpr hl)
  intro a
  rw [if_neg hne]
  dsimp only
  split
  · exact le_rfl
  · next h =>
      rcases not_and_or.mp h with h' | h'
      · exact absurd hpos (by simpa using h')
      · exact le_of_not_lt h'

lemma NNorMin_cases (cs sq : ℚ → ℚ) (e : ℕ → ℕ → ℚ) (nwtot n : ℕ) :
    NNorMin cs sq e nwtot n = 10000 ∨
      ∃ l, l < nwtot ∧ l ≠ n ∧ NNorMin cs sq e nwtot n = orDist cs sq e n l ∧
        0 < NNorMin cs sq e nwtot n := by
  unfold NNorMin
  refine foldl_init_or _ (fun z => ∃ l, l < nwtot ∧ l ≠ n ∧
    z = orDist cs sq e n l ∧ 0 < z) _ (fun a l hl => ?_) 10000
  by_cases hln : l = n
  · exact Or.inl (by rw [if_pos hln])
  · rw [if_neg hln]
    dsimp only
    split
    · next h =>
        exact Or.inr ⟨l, List.mem_range.mp hl, hln, rfl, h.1⟩
    · exact Or.inl rfl

lemma NNorMin_pos (cs sq : ℚ → ℚ) (e : ℕ → ℕ → ℚ) (nwtot n : ℕ) :
    0 < NNorMin cs sq e nwtot n := by
  rcases NNorMin_cases cs sq e nwtot n with h | ⟨l, _, _, _, h⟩
  · rw [h]; norm_num
  · exact h

lemma foldl_add_if {P : ℕ → Prop} [DecidablePred P] (t : ℕ → ℚ) :
    ∀ (L : List ℕ) (a : ℚ),
      L.foldl (fun acc n => if P n then acc + t n else acc) a
        = a + (L.map (fun n => if P n then t n else 0)).sum := by
  intro L
  induction L with
  | nil => intro a; simp
  | cons y L ih =>
      intro a
      rw [List.foldl_cons, ih, List.map_cons, List.sum_cons]
      by_cases h : P y
      · rw [if_pos h, if_pos h]; ring
      · rw [if_neg h, if_neg h]; ring

/-- Claim C5: in the orientation-only estimator, (a) NNorMin is a lower
bound for every strictly positive angular separation to another molecule;
(b) it is either the untouched sentinel 10000 or is attained at some
partner, and is always strictly positive; (c) provided every pairwise
separation is below the 9999 acceptance threshold (true of genuine
angular distances, which are bounded by a small constant), the returned
sum accumulates log(N*NNor^3/(3*twopi)) for exactly those molecules that
have a partner at strictly positive separation; (d) for a single-molecule
voxel the sentinel stays 10000, no logarithm is taken and the sum is 0. -/
theorem c5_getNNOrEntropy (cs sq lg : ℚ → ℚ) (e : ℕ → ℕ → ℚ) (nwtot : ℕ)
    (hbound : ∀ n l, n < nwtot → l < nwtot → orDist cs sq e n l < 9999) :
    (∀ n l, l < nwtot → l ≠ n → 0 < orDist cs sq e n l →
      NNorMin cs sq e nwtot n ≤ orDist cs sq e n l) ∧
    (∀ n, NNorMin cs sq e nwtot n = 10000 ∨
      ∃ l, l < nwtot ∧ l ≠ n ∧
        NNorMin cs sq e nwtot n = orDist cs sq e n l ∧
        0 < NNorMin cs sq e nwtot n) ∧
    (getNNOrEntropy cs sq lg nwtot e
      = ((List.range nwtot).map (fun n =>
          if ∃ l, l < nwtot ∧ l ≠ n ∧ 0 < orDist cs sq e n l then
            lg (nwtot * NNorMin cs sq e nwtot n * NNorMin cs sq e nwtot n
              * NNorMin cs sq e nwtot n / (3 * twoPI))
          else 0)).sum) ∧
    (∀ e' : ℕ → ℕ → ℚ,
      getNNOrEntropy cs sq lg 1 e' = 0 ∧ NNorMin cs sq e' 1 0 = 10000) := by
  refine ⟨fun n l hl hne hpos => NNorMin_le cs sq e nwtot n l hl hne hpos,
    fun n => NNorMin_cases cs sq e nwtot n, ?_, ?_⟩
  · have hiff : ∀ n, n < nwtot →
        ((NNorMin cs sq e nwtot n < 9999 ∧ NNorMin cs sq e nwtot n > 0) ↔
          ∃ l, l < nwtot ∧ l ≠ n ∧ 0 < orDist cs sq e n l) := by
      intro n hn
      constructor
      · rintro ⟨hlt, _⟩
        rcases NNorMin_cases cs sq e nwtot n with h | ⟨l, hl, hne, heq, hpos⟩
        · rw [h] at hlt; norm_num at hlt
        · exact ⟨l, hl, hne, by rw [← heq]; exact hpos⟩
      · rintro ⟨l, hl, hne, hpos⟩
        refine ⟨lt_of_le_of_lt (NNorMin_le cs sq e nwtot n l hl hne hpos)
          (hbound n l hn hl), NNorMin_pos cs sq e nwtot n⟩
    unfold getNNOrEntropy
    rw [show (fun (acc : ℚ) (n : ℕ) =>
        let NNor := NNorMin cs sq e nwtot n
        if NNor < 9999 ∧ NNor > 0 then
          acc + lg (nwtot * NNor * NNor * NNor / (3 * twoPI))
        else acc)
      = fun acc n =>
        if NNorMin cs sq e nwtot n < 9999 ∧ NNorMin cs sq e nwtot n > 0 then
          acc + lg (nwtot * NNorMin cs sq e nwtot n * NNorMin cs sq e nwtot n
            * NNorMin cs sq e nwtot n / (3 * twoPI))
        else acc from rfl]
    rw [foldl_add_if]
    rw [zero_add]
    apply congrArg
    apply List.map_congr_left
    intro n hn
    have hn' : n < nwtot := List.mem_range.mp hn
    by_cases hcond : ∃ l, l < nwtot ∧ l ≠ n ∧ 0 < orDist cs sq e n l
    · rw [if_pos hcond, if_pos ((hiff n hn').mpr hcond)]
    · rw [if_neg hcond, if_neg (fun hc => hcond ((hiff n hn').mp hc))]
  · intro e'
    constructor
    · show (List.range 1).foldl _ 0 = 0
      have hr : List.range 1 = [0] := rfl
      rw [hr, List.foldl_cons, List.foldl_nil]
      have h0 : NNorMin cs sq e' 1 0 = 10000 := by
        unfold NNorMin
        rw [hr, List.foldl_cons, List.foldl_nil, if_pos rfl]
      dsimp only
      rw [h0]
      norm_num
    · have hr : List.range 1 = [0] := rfl
      unfold NNorMin
      rw [hr, List.foldl_cons, List.foldl_nil, if_pos rfl]

/-- Witness for C5: the empty-orientation single-molecule voxel; all
pairwise separations are 0 < 9999, the sum is 0 and the sentinel stays
10000. -/
theorem c5_getNNOrEntropy_witness :
    getNNOrEntropy (fun q => q) (fun q => q) (fun q => q) 1 (fun _ _ => 0) = 0 ∧
    NNorMin (fun q => q) (fun q => q) (fun _ _ => 0) 1 0 = 10000 := by
  have hbound : ∀ n l, n < 1 → l < 1 →
      orDist (fun q => q) (fun q => q) (fun _ _ => 0) n l < 9999 := by
    intro n l _ _
    unfold orDist wrapAng
    norm_num [mPI, twoPI]
  exact (c5_getNNOrEntropy (fun q => q) (fun q => q) (fun q => q)
    (fun _ _ => 0) 1 hbound).2.2.2 (fun _ _ => 0)

/-- The exact decimal constant `pi = 3.141592653589793` of
`getNNTrEntropy`. -/
def piC : ℚ := 3.141592653589793

/-- The exact decimal constant `twopi = 6.283185307179586` of
`getNNTrEntropy`. -/
def twopiC : ℚ := 6.283185307179586

/-- The exact decimal constant `gas_kcal = 0.0019872041`. -/
def gas_kcal : ℚ := 0.0019872041

/-- The exact decimal constant `euler_masc = 0.5772156649`. -/
def euler_masc : ℚ := 0.5772156649

/-- One molecule record of the combined estimator: the oxygen position
read at flat indices n*3 .. n*3+2 of the voxel's coordinate list and the
orientation quaternion read at n*4 .. n*4+3 of the quaternion list. -/
structure Mol where
  x : ℚ
  y : ℚ
  z : ℚ
  qw : ℚ
  qx : ℚ
  qy : ℚ
  qz : ℚ

/-- Reads molecule n from a voxel's flat coordinate and quaternion
lists, exactly as the i0/q0 (and i1/q1) index arithmetic of the source. -/
def molAt (cv qv : ℕ → ℚ) (n : ℕ) : Mol where
  x := cv (n * 3)
  y := cv (n * 3 + 1)
  z := cv (n * 3 + 2)
  qw := qv (n * 4)
  qx := qv (n * 4 + 1)
  qy := qv (n * 4 + 2)
  qz := qv (n * 4 + 3)

/-- The squared positional distance `dd` between two molecule records. -/
def ddOf (m0 m1 : Mol) : ℚ := dist_squared m0.x m0.y m0.z m1.x m1.y m1.z

/-- The quaternion angle `rR = 2*acos(dot)` between two molecule
records. -/
def rROf (ac : ℚ → ℚ) (m0 m1 : Mol) : ℚ :=
  2 * ac (m0.qw * m1.qw + m0.qx * m1.qx + m0.qy * m1.qy + m0.qz * m1.qz)

/-- The same-voxel candidate update of `getNNTrEntropy`: NNd accepts a
strictly positive strictly smaller squared distance, NNs does the same
for rR^2 + dd, NNr for rR, in source order. -/
def nnUpdate3 (ac : ℚ → ℚ) (m0 m1 : Mol) (s : ℚ × ℚ × ℚ) : ℚ × ℚ × ℚ :=
  let dd := ddOf m0 m1
  let NNd := if dd < s.1 ∧ dd > 0 then dd else s.1
  let rR := rROf ac m0 m1
  let ds := rR * rR + dd
  let NNs := if ds < s.2.1 ∧ ds > 0 then ds else s.2.1
  let NNr := if rR > 0 ∧ rR < s.2.2 then rR else s.2.2
  (NNd, NNs, NNr)

/-- The neighbour-voxel candidate update of `getNNTrEntropy`: identical
to the same-voxel one except that NNr is NOT updated (the neighbour
blocks of the source update only NNd and NNs). -/
def nnUpdate2 (ac : ℚ → ℚ) (m0 m1 : Mol) (s : ℚ × ℚ) : ℚ × ℚ :=
  let dd := ddOf m0 m1
  let NNd := if dd < s.1 ∧ dd > 0 then dd else s.1
  let rR := rROf ac m0 m1
  let ds := rR * rR + dd
  let NNs := if ds < s.2 ∧ ds > 0 then ds else s.2
  (NNd, NNs)

/-- C cast `(int)` of a count double, as used for every loop bound of
`getNNTrEntropy` (equal to truncation toward zero for nonnegative
counts; negative values give an empty loop). -/
def cntOf (q : ℚ) : ℕ := (⌊q⌋).toNat

/-- The same-voxel scan of `getNNTrEntropy` for molecule n0: all three
sentinels start at 10000 and every other molecule of the voxel is
scanned in index order, n1 = n0 being skipped. -/
def sameScan (ac : ℚ → ℚ) (cv qv : ℕ → ℚ) (cnt n0 : ℕ) : ℚ × ℚ × ℚ :=
  (List.range cnt).foldl (fun s n1 =>
    if n1 = n0 then s else nnUpdate3 ac (molAt cv qv n0) (molAt cv qv n1) s)
    (10000, 10000, 10000)

/-- One neighbour-voxel block of `getNNTrEntropy`: the neighbour's count
is read from column 4 of the voxel table and its molecules update
(NNd, NNs). -/
def nbrScan (ac : ℚ → ℚ) (tbl : ℕ → ℕ → ℚ) (coords quarts : ℕ → ℕ → ℚ)
    (m0 : Mol) (s : ℚ × ℚ) (nb : ℕ) : ℚ × ℚ :=
  (List.range (cntOf (tbl nb 4))).foldl
    (fun s n1 => nnUpdate2 ac m0 (molAt (coords nb) (quarts nb) n1) s) s

/-- The twenty neighbour-voxel offsets scanned by `getNNTrEntropy`, in
source order: +z, +y, +x, -z, -y, -x, then the fourteen two-axis blocks;
the source visits +z+y and +z-y twice (its four "+Z +Y / +Z -Y"
comment blocks) and never combines all three axes. -/
def nbrOffsets (addx addy addz : ℤ) : List ℤ :=
  [addz, addy, addx, -addz, -addy, -addx,
   addz + addy, addz - addy, addz + addy, addz - addy,
   -addz + addy, -addz - addy,
   addz + addx, addz - addx, -addz + addx, -addz - addx,
   addy + addx, addy - addx, -addy + addx, -addy - addx]

/-- The neighbour voxel indices accessed for centre voxel v, as
integers. -/
def nbrIdsZ (addx addy addz v : ℤ) : List ℤ :=
  (nbrOffsets addx addy addz).map (fun d => v + d)

/-- Boundary test `cannotAddZ` of the source: nz = 0 or v mod nz is the
last z layer. -/
abbrev cannotAddZ (nz v : ℕ) : Prop := nz = 0 ∨ v % nz = nz - 1

/-- Boundary test `cannotAddY` of the source, with its idiosyncratic
modulus nz*(ny-1) + numplane*addx where numplane = v / addx. -/
abbrev cannotAddY (ny nz v : ℕ) : Prop :=
  (nz = 0 ∨ ny - 1 = 0) ∨
    v % (nz * (ny - 1) + (v / (ny * nz)) * (ny * nz)) < nz

/-- Boundary test `cannotAddX` of the source: v lies in the last x
plane. -/
abbrev cannotAddX (nx ny nz v : ℕ) : Prop :=
  ny * nz * (nx - 1) ≤ v ∧ v < ny * nz * nx

/-- Boundary test `cannotSubZ` of the source. -/
abbrev cannotSubZ (nz v : ℕ) : Prop := nz = 0 ∨ v % nz = 0

/-- Boundary test `cannotSubY` of the source. -/
abbrev cannotSubY (ny nz v : ℕ) : Prop :=
  (nz = 0 ∨ ny = 0) ∨ v % (ny * nz) < nz

/-- Boundary test `cannotSubX` of the source (the `voxel >= 0` conjunct
is vacuous for an unsigned voxel index). -/
abbrev cannotSubX (ny nz v : ℕ) : Prop := (nz = 0 ∨ ny = 0) ∨ v < ny * nz

/-- The `boundary` predicate of `getNNTrEntropy`: the disjunction of the
six cannot-move tests; when it holds the neighbour scan and the
translational/six-dimensional accumulation are skipped entirely. -/
abbrev boundaryPred (nx ny nz v : ℕ) : Prop :=
  cannotAddZ nz v ∨ cannotAddY ny nz v ∨ cannotAddX nx ny nz v ∨
    cannotSubZ nz v ∨ cannotSubY ny nz v ∨ cannotSubX ny nz v

/-- The per-molecule orientational accumulation of `getNNTrEntropy`
(performed before the boundary test): if the voxel holds more than one
molecule and NNr was updated, log(NNr^3 * N / (3*twopi)) is added to
column 10. -/
def orientPart (lg : ℚ → ℚ) (v : ℕ) (nw NNr : ℚ) (tbl : ℕ → ℕ → ℚ) :
    ℕ → ℕ → ℚ :=
  if nw > 1 ∧ NNr < 9999 ∧ NNr > 0 then
    addTbl tbl v 10 (lg (NNr * NNr * NNr * nw / (3 * twopiC)))
  else tbl

/-- The per-molecule translational/six-dimensional accumulation of
`getNNTrEntropy`, applied to the square-rooted sentinels: under the
single test 0 < NNd < 3 BOTH the translational term (column 8) and the
six-dimensional term (column 12) are accumulated. -/
def transPart (lg : ℚ → ℚ) (F : ℕ) (ref_dens : ℚ) (v : ℕ) (NNd NNs : ℚ)
    (tbl : ℕ → ℕ → ℚ) : ℕ → ℕ → ℚ :=
  if NNd < 3 ∧ NNd > 0 then
    addTbl (addTbl tbl v 8
        (lg (NNd * NNd * NNd * F * 4 * piC * ref_dens / 3))) v 12
      (lg (NNs * NNs * NNs * NNs * NNs * NNs * F * piC * ref_dens / 48))
  else tbl

/-- The body of the `for n0` molecule loop of `getNNTrEntropy`: the
same-voxel scan fills (NNd, NNs, NNr), the orientational term is
accumulated, and then, only for a non-boundary voxel, the twenty
neighbour blocks update (NNd, NNs), square roots are taken, and the
translational/six-dimensional terms are accumulated. -/
def molStep (ac sq lg : ℚ → ℚ) (nx ny nz F : ℕ) (ref_dens : ℚ)
    (coords quarts : ℕ → ℕ → ℚ) (v : ℕ) (nw : ℚ)
    (tbl : ℕ → ℕ → ℚ) (n0 : ℕ) : ℕ → ℕ → ℚ :=
  let m0 := molAt (coords v) (quarts v) n0
  let s3 := sameScan ac (coords v) (quarts v) (cntOf nw) n0
  let tbl1 := orientPart lg v nw s3.2.2 tbl
  if boundaryPred nx ny nz v then tbl1
  else
    let nbrs := (nbrIdsZ (ny * nz) nz 1 v).map Int.toNat
    let s2 := nbrs.foldl (nbrScan ac tbl1 coords quarts m0) (s3.1, s3.2.1)
    transPart lg F ref_dens v (sq s2.1) (sq s2.2) tbl1

/-- The body of the voxel loop of `getNNTrEntropy`: occupancy is
accumulated into column 5, the molecule loop runs, and the voxel's
sums are normalised in place (columns 10 then 9 under the
"orientational sum nonzero" guard, columns 8 and 12 under the
"translational sum nonzero" guard, columns 7 and 11 unconditionally). -/
def voxelStep (ac sq lg : ℚ → ℚ) (nx ny nz F : ℕ)
    (voxel_vol ref_dens temp : ℚ) (coords quarts : ℕ → ℕ → ℚ)
    (tbl : ℕ → ℕ → ℚ) (v : ℕ) : ℕ → ℕ → ℚ :=
  let nw := tbl v 4
  let voxel_dens := 1 * nw / (F * voxel_vol)
  let tbl1 := addTbl tbl v 5 (voxel_dens / ref_dens)
  let tbl2 := (List.range (cntOf nw)).foldl
    (molStep ac sq lg nx ny nz F ref_dens coords quarts v nw) tbl1
  let dTStrans_norm := tbl2 v 8
  let dTSorient_norm := tbl2 v 10
  let dTSsix_norm := tbl2 v 12
  let tbl3 :=
    if dTSorient_norm ≠ 0 then
      let ta := updTbl tbl2 v 10
        (gas_kcal * temp * (dTSorient_norm / nw + euler_masc))
      updTbl ta v 9 (ta v 10 * nw / (F * voxel_vol))
    else tbl2
  let tbl4 :=
    if dTStrans_norm ≠ 0 then
      let tb := updTbl tbl3 v 8
        (gas_kcal * temp * (dTStrans_norm / nw + euler_masc))
      updTbl tb v 12 (gas_kcal * temp * (dTSsix_norm / nw + euler_masc))
    else tbl3
  let tbl5 := updTbl tbl4 v 7 (tbl4 v 8 * nw / (F * voxel_vol))
  updTbl tbl5 v 11 (tbl5 v 12 * nw / (F * voxel_vol))

/-- Embeds `_sstmap_ext_getNNTrEntropy`: the voxel loop in flattened
order over the whole grid, returning the mutated voxel table. -/
def getNNTrEntropy (ac sq lg : ℚ → ℚ) (F : ℕ)
    (voxel_vol ref_dens temp : ℚ) (nx ny nz : ℕ)
    (tbl coords quarts : ℕ → ℕ → ℚ) : ℕ → ℕ → ℚ :=
  (List.range (nx * ny * nz)).foldl
    (voxelStep ac sq lg nx ny nz F voxel_vol ref_dens temp coords quarts) tbl

/-- Counterexample to claim C1 as stated: on a 5x5x5 grid (addx = 25,
addy = 5, addz = 1) at the interior voxel 62, the neighbour scan visits
18 distinct voxels (6 faces plus 12 face diagonals, two of them scanned
twice for a total of 20 blocks), not the 16 = 6 + 10 the claim
describes. -/
theorem c1_counterexample :
    (nbrIdsZ 25 5 1 62).length = 20 ∧
      (nbrIdsZ 25 5 1 62).toFinset.card = 18 := by
  constructor
  · rfl
  · decide

/-- Claim C1 (amended): for strides addx = A, addy = B, addz = 1 with
B >= 3 and A >= 3B (true of any grid with ny, nz >= 3), the set of
neighbour voxels visited for centre v is exactly the six face
neighbours and all twelve face-diagonal neighbours (the +z+y and +z-y
diagonals are each visited twice), and no true corner neighbour
(v + s1*A + s2*B + s3 with all three signs active) is ever visited. -/
theorem c1_neighbor_offsets (A B v : ℤ) (hB : 3 ≤ B) (hA : 3 * B ≤ A) :
    (∀ d : ℤ, d ∈ nbrIdsZ A B 1 v ↔
      d ∈ [v + 1, v + B, v + A, v - 1, v - B, v - A,
           v + 1 + B, v + 1 - B, v - 1 + B, v - 1 - B,
           v + 1 + A, v + 1 - A, v - 1 + A, v - 1 - A,
           v + B + A, v + B - A, v - B + A, v - B - A]) ∧
    (∀ s1 s2 s3 : ℤ, (s1 = 1 ∨ s1 = -1) → (s2 = 1 ∨ s2 = -1) →
      (s3 = 1 ∨ s3 = -1) → v + s1 * A + s2 * B + s3 ∉ nbrIdsZ A B 1 v) := by
  constructor
  · intro d
    simp only [nbrIdsZ, nbrOffsets, List.mem_map, List.mem_cons,
      List.not_mem_nil, or_false, List.mem_singleton]
    constructor
    · rintro ⟨d', hd', rfl⟩
      rcases hd' with rfl | rfl | rfl | rfl | rfl | rfl | rfl | rfl | rfl |
        rfl | rfl | rfl | rfl | rfl | rfl | rfl | rfl | rfl | rfl | rfl <;>
        omega
    · intro hd
      rcases hd with rfl | rfl | rfl | rfl | rfl | rfl | rfl | rfl | rfl |
        rfl | rfl | rfl | rfl | rfl | rfl | rfl | rfl | rfl
      · exact ⟨1, by norm_num, by ring⟩
      · exact ⟨B, by norm_num, by ring⟩
      · exact ⟨A, by norm_num, by ring⟩
      · exact ⟨-1, by norm_num, by ring⟩
      · exact ⟨-B, by norm_num, by ring⟩
      · exact ⟨-A, by norm_num, by ring⟩
      · exact ⟨1 + B, by norm_num, by ring⟩
      · exact ⟨1 - B, by norm_num, by ring⟩
      · exact ⟨-1 + B, by norm_num, by ring⟩
      · exact ⟨-1 - B, by norm_num, by ring⟩
      · exact ⟨1 + A, by norm_num, by ring⟩
      · exact ⟨1 - A, by norm_num, by ring⟩
      · exact ⟨-1 + A, by norm_num, by ring⟩
      · exact ⟨-1 - A, by norm_num, by ring⟩
      · exact ⟨B + A, by norm_num, by ring⟩
      · exact ⟨B - A, by norm_num, by ring⟩
      · exact ⟨-B + A, by norm_num, by ring⟩
      · exact ⟨-B - A, by norm_num, by ring⟩
  · intro s1 s2 s3 h1 h2 h3 hmem
    simp only [nbrIdsZ, nbrOffsets, List.mem_map, List.mem_cons,
      List.not_mem_nil, or_false] at hmem
    obtain ⟨d', hd', heq⟩ := hmem
    rcases h1 with rfl | rfl <;> rcases h2 with rfl | rfl <;>
      rcases h3 with rfl | rfl <;>
      rcases hd' with rfl | rfl | rfl | rfl | rfl | rfl | rfl | rfl | rfl |
        rfl | rfl | rfl | rfl | rfl | rfl | rfl | rfl | rfl | rfl | rfl <;>
      omega

/-- Witness for the amended C1 theorem on the 3x3x3 grid (A = 9, B = 3)
at the interior voxel 13: membership of one representative offset and
exclusion of one corner. -/
theorem c1_neighbor_offsets_witness :
    ((13 : ℤ) + 1 + 3 ∈ nbrIdsZ 9 3 1 13) ∧
      ((13 : ℤ) + 1 * 9 + 1 * 3 + 1 ∉ nbrIdsZ 9 3 1 13) := by
  constructor
  · exact ((c1_neighbor_offsets 9 3 13 (by norm_num) (by norm_num)).1
      (13 + 1 + 3)).mpr (by norm_num)
  · exact (c1_neighbor_offsets 9 3 13 (by norm_num) (by norm_num)).2 1 1 1
      (Or.inl rfl) (Or.inl rfl) (Or.inl rfl)

lemma flat_bounds (A B X Y Z NX NY : ℤ) (hA : A = NY * B)
    (hX1 : 0 ≤ X) (hX2 : X < NX) (hY1 : 0 ≤ Y) (hY2 : Y < NY)
    (hZ1 : 0 ≤ Z) (hZ2 : Z < B) :
    0 ≤ X * A + Y * B + Z ∧ X * A + Y * B + Z < NX * A := by
  have hB0 : 0 < B := lt_of_le_of_lt hZ1 hZ2
  have hA0 : 0 ≤ A := by
    rw [hA]
    exact mul_nonneg (by linarith) hB0.le
  constructor
  · have h1 : 0 ≤ X * A := mul_nonneg hX1 hA0
    have h2 : 0 ≤ Y * B := mul_nonneg hY1 hB0.le
    linarith
  · have h1 : Y * B + Z < (Y + 1) * B := by nlinarith
  -- inner row strictly inside one x-plane, then one more plane fits
    have h2 : (Y + 1) * B ≤ NY * B := by
      apply mul_le_mul_of_nonneg_right (by linarith) hB0.le
    have h3 : X * A + A ≤ NX * A := by
      have : (X + 1) * A ≤ NX * A :=
        mul_le_mul_of_nonneg_right (by linarith) hA0
      nlinarith
    nlinarith [hA]

lemma inrange (A B X Y Z NX NY dx dy dz : ℤ) (hA : A = NY * B)
    (hX1 : 1 ≤ X) (hX2 : X + 2 ≤ NX) (hY1 : 1 ≤ Y) (hY2 : Y + 2 ≤ NY)
    (hZ1 : 1 ≤ Z) (hZ2 : Z + 2 ≤ B)
    (hdx1 : -1 ≤ dx) (hdx2 : dx ≤ 1) (hdy1 : -1 ≤ dy) (hdy2 : dy ≤ 1)
    (hdz1 : -1 ≤ dz) (hdz2 : dz ≤ 1) :
    0 ≤ X * A + Y * B + Z + (dx * A + dy * B + dz) ∧
      X * A + Y * B + Z + (dx * A + dy * B + dz) < NX * A := by
  have h := flat_bounds A B (X + dx) (Y + dy) (Z + dz) NX NY hA
    (by linarith) (by linarith) (by linarith) (by linarith)
    (by linarith) (by linarith)
  have heq : (X + dx) * A + (Y + dy) * B + (Z + dz)
      = X * A + Y * B + Z + (dx * A + dy * B + dz) := by ring
  rw [heq] at h
  exact h

lemma voxel_decomp (ny nz v : ℕ) (hny : 0 < ny) (hnz : 0 < nz) :
    v = (v / (ny * nz)) * (ny * nz) + ((v % (ny * nz)) / nz) * nz + v % nz ∧
      v % nz < nz ∧ (v % (ny * nz)) / nz < ny ∧
      v % (ny * nz) = ((v % (ny * nz)) / nz) * nz + v % nz := by
  have hM : 0 < ny * nz := Nat.mul_pos hny hnz
  have h1 : ny * nz * (v / (ny * nz)) + v % (ny * nz) = v :=
    Nat.div_add_mod v (ny * nz)
  have h2 : nz * ((v % (ny * nz)) / nz) + (v % (ny * nz)) % nz = v % (ny * nz) :=
    Nat.div_add_mod (v % (ny * nz)) nz
  have h3 : (v % (ny * nz)) % nz = v % nz :=
    Nat.mod_mod_of_dvd v (dvd_mul_left nz ny)
  have h4 : (v % (ny * nz)) / nz < ny := by
    have hlt : v % (ny * nz) < ny * nz := Nat.mod_lt v hM
    rw [Nat.div_lt_iff_lt_mul hnz]
    exact hlt
  rw [h3] at h2
  refine ⟨?_, Nat.mod_lt v hnz, h4, by linarith [h2]⟩
  calc v = ny * nz * (v / (ny * nz)) + v % (ny * nz) := h1.symm
    _ = ny * nz * (v / (ny * nz)) + (nz * ((v % (ny * nz)) / nz) + v % nz) := by
        rw [h2]
    _ = (v / (ny * nz)) * (ny * nz) + ((v % (ny * nz)) / nz) * nz + v % nz := by
        ring

set_option maxHeartbeats 1000000 in
/-- Claim C4: on a grid with nx, ny, nz >= 1, for every voxel index v
inside the grid for which the `boundary` predicate is false, every one of
the twenty neighbour indices accessed by the estimator's scan (v plus or
minus addz, addy, addx and the pairwise combinations, with
addx = ny*nz, addy = nz, addz = 1) lies within [0, nx*ny*nz), so no
neighbour access is out of bounds. -/
theorem c4_neighbors_in_bounds (nx ny nz : ℕ) (hx : 1 ≤ nx) (hy : 1 ≤ ny)
    (hz : 1 ≤ nz) (v : ℕ) (hv : v < nx * ny * nz)
    (hb : ¬ boundaryPred nx ny nz v) :
    ∀ w ∈ nbrIdsZ (ny * nz) nz 1 v, 0 ≤ w ∧ w < ((nx * ny * nz : ℕ) : ℤ) := by
  have hb6 : ¬ cannotAddZ nz v ∧ ¬ cannotAddY ny nz v ∧
      ¬ cannotAddX nx ny nz v ∧ ¬ cannotSubZ nz v ∧ ¬ cannotSubY ny nz v ∧
      ¬ cannotSubX ny nz v := by
    unfold boundaryPred at hb
    tauto
  obtain ⟨hbAZ, hbAY, hbAX, hbSZ, hbSY, hbSX⟩ := hb6
  -- coordinates of the voxel
  obtain ⟨hdec, hizlt, hiylt, hmod⟩ := voxel_decomp ny nz v (by omega) (by omega)
  set ix := v / (ny * nz) with hix
  set iy := (v % (ny * nz)) / nz with hiy
  set iz := v % nz with hiz
  have hixlt : ix < nx := by
    rw [hix, Nat.div_lt_iff_lt_mul (Nat.mul_pos (by omega) (by omega))]
    calc v < nx * ny * nz := hv
      _ = nx * (ny * nz) := by ring
  -- z bounds
  have hiz1 : 1 ≤ iz := by
    rcases Nat.eq_zero_or_pos iz with h0 | h1
    · exact absurd (Or.inr (hiz ▸ h0)) hbSZ
    · exact h1
  have hiz2 : iz + 2 ≤ nz := by
    have hne : iz ≠ nz - 1 := fun hcontra => hbAZ (Or.inr (hiz ▸ hcontra))
    omega
  -- y lower bound
  have hiy1 : 1 ≤ iy := by
    rcases Nat.eq_zero_or_pos iy with h0 | h1
    · exfalso
      apply hbSY
      refine Or.inr ?_
      rw [hmod, h0]
      simpa using hizlt
    · exact h1
  -- y upper bound via the cannotAddY modulus
  have hny2 : 2 ≤ ny := by
    rcases Nat.lt_or_ge ny 2 with h | h
    · exfalso
      apply hbAY
      exact Or.inl (Or.inr (by omega))
    · exact h
  have hiy2 : iy + 2 ≤ ny := by
    by_contra hcon
    have hiytop : iy = ny - 1 := by omega
    apply hbAY
    refine Or.inr ?_
    have hM : nz * (ny - 1) + (v / (ny * nz)) * (ny * nz)
        = nz * (ny - 1) + ix * (ny * nz) := by rw [hix]
    have hveq : v = (nz * (ny - 1) + ix * (ny * nz)) + iz := by
      have hcomm : iy * nz = nz * (ny - 1) := by rw [hiytop]; ring
      omega
    have hMpos : nz ≤ nz * (ny - 1) + ix * (ny * nz) := by
      have h1 : nz * 1 ≤ nz * (ny - 1) := Nat.mul_le_mul_left nz (by omega)
      omega
    rw [hM, hveq]
    rw [Nat.add_mod_left]
    rw [Nat.mod_eq_of_lt (by omega)]
    omega
  -- x bounds
  have hix1 : 1 ≤ ix := by
    have hge : ¬ v < ny * nz := fun hcontra => hbSX (Or.inr hcontra)
    rw [hix]
    rw [Nat.le_div_iff_mul_le (Nat.mul_pos (by omega) (by omega))]
    omega
  have hix2 : ix + 2 ≤ nx := by
    have hsecond : v < ny * nz * nx := by
      calc v < nx * ny * nz := hv
        _ = ny * nz * nx := by ring
    have hfirst : ¬ ny * nz * (nx - 1) ≤ v := fun hcontra =>
      hbAX ⟨hcontra, hsecond⟩
    push_neg at hfirst
    have : ix < nx - 1 := by
      rw [hix, Nat.div_lt_iff_lt_mul (Nat.mul_pos (by omega) (by omega))]
      calc v < ny * nz * (nx - 1) := hfirst
        _ = (nx - 1) * (ny * nz) := by ring
    omega
  -- pass to integers
  intro w hw
  have hbig : ((nx * ny * nz : ℕ) : ℤ) = (nx : ℤ) * ((ny : ℤ) * (nz : ℤ)) := by
    push_cast
    ring
  have hveqz : (v : ℤ) = (ix : ℤ) * ((ny : ℤ) * (nz : ℤ))
      + (iy : ℤ) * (nz : ℤ) + (iz : ℤ) := by
    conv_lhs => rw [show v = ix * (ny * nz) + iy * nz + iz from hdec]
    push_cast
    ring
  have hAeq : ((ny : ℤ) * (nz : ℤ)) = (ny : ℤ) * (nz : ℤ) := rfl
  have hX1 : 1 ≤ (ix : ℤ) := by exact_mod_cast hix1
  have hX2 : (ix : ℤ) + 2 ≤ (nx : ℤ) := by exact_mod_cast hix2
  have hY1 : 1 ≤ (iy : ℤ) := by exact_mod_cast hiy1
  have hY2 : (iy : ℤ) + 2 ≤ (ny : ℤ) := by exact_mod_cast hiy2
  have hZ1 : 1 ≤ (iz : ℤ) := by exact_mod_cast hiz1
  have hZ2 : (iz : ℤ) + 2 ≤ (nz : ℤ) := by exact_mod_cast hiz2
  rw [hbig]
  simp only [nbrIdsZ, nbrOffsets, List.mem_map, List.mem_cons,
    List.not_mem_nil, or_false] at hw
  obtain ⟨d', hd', rfl⟩ := hw
  have hin : ∀ dx dy dz : ℤ, -1 ≤ dx → dx ≤ 1 → -1 ≤ dy → dy ≤ 1 →
      -1 ≤ dz → dz ≤ 1 →
      0 ≤ (ix : ℤ) * ((ny : ℤ) * (nz : ℤ)) + (iy : ℤ) * (nz : ℤ) + (iz : ℤ)
          + (dx * ((ny : ℤ) * (nz : ℤ)) + dy * (nz : ℤ) + dz) ∧
        (ix : ℤ) * ((ny : ℤ) * (nz : ℤ)) + (iy : ℤ) * (nz : ℤ) + (iz : ℤ)
          + (dx * ((ny : ℤ) * (nz : ℤ)) + dy * (nz : ℤ) + dz)
          < (nx : ℤ) * ((ny : ℤ) * (nz : ℤ)) :=
    fun dx dy dz h1 h2 h3 h4 h5 h6 =>
      inrange ((ny : ℤ) * (nz : ℤ)) (nz : ℤ) (ix : ℤ) (iy : ℤ) (iz : ℤ)
        (nx : ℤ) (ny : ℤ) dx dy dz rfl hX1 hX2 hY1 hY2 hZ1 hZ2
        h1 h2 h3 h4 h5 h6
  rcases hd' with rfl | rfl | rfl | rfl | rfl | rfl | rfl | rfl | rfl |
    rfl | rfl | rfl | rfl | rfl | rfl | rfl | rfl | rfl | rfl | rfl
  · have := hin 0 0 1 (by norm_num) (by norm_num) (by norm_num) (by norm_num)
      (by norm_num) (by norm_num)
    constructor <;> linarith [hveqz, this.1, this.2]
  · have := hin 0 1 0 (by norm_num) (by norm_num) (by norm_num) (by norm_num)
      (by norm_num) (by norm_num)
    constructor <;> linarith [hveqz, this.1, this.2]
  · have := hin 1 0 0 (by norm_num) (by norm_num) (by norm_num) (by norm_num)
      (by norm_num) (by norm_num)
    constructor <;> linarith [hveqz, this.1, this.2]
  · have := hin 0 0 (-1) (by norm_num) (by norm_num) (by norm_num)
      (by norm_num) (by norm_num) (by norm_num)
    constructor <;> linarith [hveqz, this.1, this.2]
  · have := hin 0 (-1) 0 (by norm_num) (by norm_num) (by norm_num)
      (by norm_num) (by norm_num) (by norm_num)
    constructor <;> linarith [hveqz, this.1, this.2]
  · have := hin (-1) 0 0 (by norm_num) (by norm_num) (by norm_num)
      (by norm_num) (by norm_num) (by norm_num)
    constructor <;> linarith [hveqz, this.1, this.2]
  · have := hin 0 1 1 (by norm_num) (by norm_num) (by norm_num) (by norm_num)
      (by norm_num) (by norm_num)
    constructor <;> linarith [hveqz, this.1, this.2]
  · have := hin 0 (-1) 1 (by norm_num) (by norm_num) (by norm_num)
      (by norm_num) (by norm_num) (by norm_num)
    constructor <;> linarith [hveqz, this.1, this.2]
  · have := hin 0 1 1 (by norm_num) (by norm_num) (by norm_num) (by norm_num)
      (by norm_num) (by norm_num)
    constructor <;> linarith [hveqz, this.1, this.2]
  · have := hin 0 (-1) 1 (by norm_num) (by norm_num) (by norm_num)
      (by norm_num) (by norm_num) (by norm_num)
    constructor <;> linarith [hveqz, this.1, this.2]
  · have := hin 0 1 (-1) (by norm_num) (by norm_num) (by norm_num)
      (by norm_num) (by norm_num) (by norm_num)
    constructor <;> linarith [hveqz, this.1, this.2]
  · have := hin 0 (-1) (-1) (by norm_num) (by norm_num) (by norm_num)
      (by norm_num) (by norm_num) (by norm_num)
    constructor <;> linarith [hveqz, this.1, this.2]
  · have := hin 1 0 1 (by norm_num) (by norm_num) (by norm_num) (by norm_num)
      (by norm_num) (by norm_num)
    constructor <;> linarith [hveqz, this.1, this.2]
  · have := hin (-1) 0 1 (by norm_num) (by norm_num) (by norm_num)
      (by norm_num) (by norm_num) (by norm_num)
    constructor <;> linarith [hveqz, this.1, this.2]
  · have := hin 1 0 (-1) (by norm_num) (by norm_num) (by norm_num)
      (by norm_num) (by norm_num) (by norm_num)
    constructor <;> linarith [hveqz, this.1, this.2]
  · have := hin (-1) 0 (-1) (by norm_num) (by norm_num) (by norm_num)
      (by norm_num) (by norm_num) (by norm_num)
    constructor <;> linarith [hveqz, this.1, this.2]
  · have := hin 1 1 0 (by norm_num) (by norm_num) (by norm_num) (by norm_num)
      (by norm_num) (by norm_num)
    constructor <;> linarith [hveqz, this.1, this.2]
  · have := hin (-1) 1 0 (by norm_num) (by norm_num) (by norm_num)
      (by norm_num) (by norm_num) (by norm_num)
    constructor <;> linarith [hveqz, this.1, this.2]
  · have := hin 1 (-1) 0 (by norm_num) (by norm_num) (by norm_num)
      (by norm_num) (by norm_num) (by norm_num)
    constructor <;> linarith [hveqz, this.1, this.2]
  · have := hin (-1) (-1) 0 (by norm_num) (by norm_num) (by norm_num)
      (by norm_num) (by norm_num) (by norm_num)
    constructor <;> linarith [hveqz, this.1, this.2]

/-- Witness for C4 on the 3x3x3 grid at the interior voxel 13. -/
theorem c4_neighbors_in_bounds_witness :
    ¬ boundaryPred 3 3 3 13 ∧
      ∀ w ∈ nbrIdsZ (3 * 3) 3 1 13, 0 ≤ w ∧ w < ((3 * 3 * 3 : ℕ) : ℤ) := by
  have hnb : ¬ boundaryPred 3 3 3 13 := by decide
  exact ⟨hnb, c4_neighbors_in_bounds 3 3 3 (by norm_num) (by norm_num)
    (by norm_num) 13 (by norm_num) hnb⟩

/-- Modelled from the spec claim C2's words, for comparison with the
code: "the minimum over same-voxel AND neighbor-voxel candidates,
combined undistinguished" of the quaternion angle rR, over the same
candidate molecules the code scans (same voxel skipping n0, then the
twenty neighbour blocks), accepting a candidate when it is strictly
positive and strictly smaller. -/
def NNrCombinedSpec (ac : ℚ → ℚ) (tbl coords quarts : ℕ → ℕ → ℚ)
    (nx ny nz : ℕ) (v : ℕ) (nw : ℚ) (n0 : ℕ) : ℚ :=
  let m0 := molAt (coords v) (quarts v) n0
  let r0 := (List.range (cntOf nw)).foldl (fun r n1 =>
    if n1 = n0 then r
    else
      let rR := rROf ac m0 (molAt (coords v) (quarts v) n1)
      if rR > 0 ∧ rR < r then rR else r) 10000
  ((nbrIdsZ (ny * nz) nz 1 v).map Int.toNat).foldl (fun r nb =>
    (List.range (cntOf (tbl nb 4))).foldl (fun r n1 =>
      let rR := rROf ac m0 (molAt (coords nb) (quarts nb) n1)
      if rR > 0 ∧ rR < r then rR else r) r) r0

lemma updTbl_get_ne (t : ℕ → ℕ → ℚ) (v c : ℕ) (q : ℚ) (v' c' : ℕ)
    (h : ¬ (v' = v ∧ c' = c)) : updTbl t v c q v' c' = t v' c' := by
  unfold updTbl
  rw [if_neg h]

lemma updTbl_get_same (t : ℕ → ℕ → ℚ) (v c : ℕ) (q : ℚ) :
    updTbl t v c q v c = q := by
  unfold updTbl
  rw [if_pos ⟨rfl, rfl⟩]

lemma addTbl_get_ne (t : ℕ → ℕ → ℚ) (v c : ℕ) (q : ℚ) (v' c' : ℕ)
    (h : ¬ (v' = v ∧ c' = c)) : addTbl t v c q v' c' = t v' c' :=
  updTbl_get_ne t v c _ v' c' h

lemma addTbl_get_same (t : ℕ → ℕ → ℚ) (v c : ℕ) (q : ℚ) :
    addTbl t v c q v c = t v c + q :=
  updTbl_get_same t v c _

lemma orientPart_get_col10 (lg : ℚ → ℚ) (v : ℕ) (nw NNr : ℚ)
    (tbl : ℕ → ℕ → ℚ) :
    orientPart lg v nw NNr tbl v 10
      = (if nw > 1 ∧ NNr < 9999 ∧ NNr > 0 then
          tbl v 10 + lg (NNr * NNr * NNr * nw / (3 * twopiC))
        else tbl v 10) := by
  unfold orientPart
  split_ifs with h
  · exact addTbl_get_same tbl v 10 _
  · rfl

lemma transPart_get_col10 (lg : ℚ → ℚ) (F : ℕ) (rd : ℚ) (v : ℕ)
    (NNd NNs : ℚ) (tbl : ℕ → ℕ → ℚ) :
    transPart lg F rd v NNd NNs tbl v 10 = tbl v 10 := by
  unfold transPart
  split_ifs with h
  · rw [addTbl_get_ne _ _ _ _ _ _ (by norm_num),
      addTbl_get_ne _ _ _ _ _ _ (by norm_num)]
  · rfl

lemma molStep_col10 (ac sq lg : ℚ → ℚ) (nx ny nz F : ℕ)
    (rd : ℚ) (coords quarts : ℕ → ℕ → ℚ) (v : ℕ) (nw : ℚ)
    (tbl : ℕ → ℕ → ℚ) (n0 : ℕ) :
    molStep ac sq lg nx ny nz F rd coords quarts v nw tbl n0 v 10
      = (if nw > 1 ∧ (sameScan ac (coords v) (quarts v) (cntOf nw) n0).2.2 < 9999
            ∧ (sameScan ac (coords v) (quarts v) (cntOf nw) n0).2.2 > 0 then
          tbl v 10
            + lg ((sameScan ac (coords v) (quarts v) (cntOf nw) n0).2.2
              * (sameScan ac (coords v) (quarts v) (cntOf nw) n0).2.2
              * (sameScan ac (coords v) (quarts v) (cntOf nw) n0).2.2
              * nw / (3 * twopiC))
        else tbl v 10) := by
  unfold molStep
  by_cases hbd : boundaryPred nx ny nz v
  · rw [if_pos hbd, orientPart_get_col10]
  · rw [if_neg hbd]
    simp only [transPart_get_col10, orientPart_get_col10]

/-- The concrete acos stand-in of the C2 counterexample input: the
quaternion dots that occur are 0 (same-voxel pair) and 1 (neighbour
pair), mapped to half-angles 1 and 1/2. -/
def c2ac : ℚ → ℚ := fun x => if x = 0 then 1 else 1 / 2

/-- The concrete voxel table of the C2/C3 counterexamples: voxel 13
holds two molecules; voxel 14 holds one (C2) and everything else is
zero. -/
def c2tbl : ℕ → ℕ → ℚ := fun p c =>
  if p = 13 ∧ c = 4 then 2 else if p = 14 ∧ c = 4 then 1 else 0

/-- All-zero coordinates (every molecule at the origin). -/
def c2coords : ℕ → ℕ → ℚ := fun _ _ => 0

/-- Quaternions of the C2 counterexample: voxel 13 holds (1,0,0,0) and
(0,1,0,0); voxel 14 holds (1,0,0,0). -/
def c2quarts : ℕ → ℕ → ℚ := fun p k =>
  if p = 13 then (if k = 0 then 1 else if k = 5 then 1 else 0)
  else if p = 14 then (if k = 0 then 1 else 0) else 0

/-- Counterexample to claim C2 as stated: a concrete non-boundary voxel
(13 on a 3x3x3 grid) with two coincident molecules at quaternion angle 2
from each other, and a single neighbour-voxel molecule at angle 1 from
the reference.  The combined same+neighbour minimum is 1, but the code's
orientational accumulation for molecule 0 adds log(2^3*N/(3*twopi))
computed from the same-voxel minimum 2, not log(1^3*N/(3*twopi)) as the
claim would require (log here instantiated to the identity). -/
theorem c2_counterexample :
    NNrCombinedSpec c2ac c2tbl c2coords c2quarts 3 3 3 13 2 0 = 1 ∧
    molStep c2ac (fun q => q) (fun q => q) 3 3 3 1 1 c2coords c2quarts 13 2
        c2tbl 0 13 10
      = 16 / (3 * twopiC) ∧
    molStep c2ac (fun q => q) (fun q => q) 3 3 3 1 1 c2coords c2quarts 13 2
        c2tbl 0 13 10
      ≠ c2tbl 13 10 +
        (NNrCombinedSpec c2ac c2tbl c2coords c2quarts 3 3 3 13 2 0
          * NNrCombinedSpec c2ac c2tbl c2coords c2quarts 3 3 3 13 2 0
          * NNrCombinedSpec c2ac c2tbl c2coords c2quarts 3 3 3 13 2 0
          * 2 / (3 * twopiC)) := by
  have hcnt2 : cntOf 2 = 2 := by
    norm_num [cntOf]
    rfl
  have hsame : sameScan c2ac (c2coords 13) (c2quarts 13) (cntOf 2) 0
      = (10000, 4, 2) := by
    rw [hcnt2]
    norm_num [sameScan, nnUpdate3, molAt, ddOf, rROf, dist_squared,
      c2coords, c2quarts, c2ac, List.range_succ]
  have hspec : NNrCombinedSpec c2ac c2tbl c2coords c2quarts 3 3 3 13 2 0
      = 1 := by
    norm_num [NNrCombinedSpec, nbrIdsZ, nbrOffsets, cntOf, molAt, rROf,
      c2coords, c2quarts, c2ac, c2tbl, List.range_succ, Int.toNat]
  refine ⟨hspec, ?_, ?_⟩
  · rw [molStep_col10, hsame]
    norm_num [c2tbl]
  · rw [molStep_col10, hsame, hspec]
    norm_num [c2tbl, twopiC]

/-- Claim C2 (amended): in the combined estimator, the orientational
nearest-neighbour distance NNr used for the per-molecule accumulation
into column 10 is the minimum over SAME-VOXEL candidates only (the
neighbour-voxel blocks update only NNd and NNs, and the accumulation is
performed before the neighbour scan); the column-10 result of the
molecule step is therefore a function of the same-voxel scan alone. -/
theorem c2_nnr_same_voxel_only (ac sq lg : ℚ → ℚ) (nx ny nz F : ℕ)
    (rd : ℚ) (coords quarts : ℕ → ℕ → ℚ) (v : ℕ) (nw : ℚ)
    (tbl : ℕ → ℕ → ℚ) (n0 : ℕ) :
    molStep ac sq lg nx ny nz F rd coords quarts v nw tbl n0 v 10
      = (if nw > 1 ∧ (sameScan ac (coords v) (quarts v) (cntOf nw) n0).2.2 < 9999
            ∧ (sameScan ac (coords v) (quarts v) (cntOf nw) n0).2.2 > 0 then
          tbl v 10
            + lg ((sameScan ac (coords v) (quarts v) (cntOf nw) n0).2.2
              * (sameScan ac (coords v) (quarts v) (cntOf nw) n0).2.2
              * (sameScan ac (coords v) (quarts v) (cntOf nw) n0).2.2
              * nw / (3 * twopiC))
        else tbl v 10) :=
  molStep_col10 ac sq lg nx ny nz F rd coords quarts v nw tbl n0

/-- Claim C3 (amended): in the molecule step of the combined estimator at
a non-boundary voxel, the translational term (column 8) and the
six-dimensional term (column 12) are accumulated together, gated by the
SINGLE condition 0 < sqrt(NNd) < 3 on the positional sentinel; the NNs
sentinel is never consulted by the gate (see the counterexample for a
case where NNs was updated to a strictly positive value yet nothing is
accumulated). -/
theorem c3_trans_six_single_gate (ac sq lg : ℚ → ℚ) (nx ny nz F : ℕ)
    (rd : ℚ) (coords quarts : ℕ → ℕ → ℚ) (v : ℕ) (nw : ℚ)
    (tbl : ℕ → ℕ → ℚ) (n0 : ℕ)
    (hnb : ¬ boundaryPred nx ny nz v) :
    let s3 := sameScan ac (coords v) (quarts v) (cntOf nw) n0
    let tbl1 := orientPart lg v nw s3.2.2 tbl
    let s2 := (((nbrIdsZ (ny * nz) nz 1 v).map Int.toNat).foldl
      (nbrScan ac tbl1 coords quarts (molAt (coords v) (quarts v) n0))
      (s3.1, s3.2.1))
    let d := sq s2.1
    let s := sq s2.2
    molStep ac sq lg nx ny nz F rd coords quarts v nw tbl n0 v 8
        = (if d < 3 ∧ d > 0 then
            tbl1 v 8 + lg (d * d * d * F * 4 * piC * rd / 3)
          else tbl1 v 8) ∧
      molStep ac sq lg nx ny nz F rd coords quarts v nw tbl n0 v 12
        = (if d < 3 ∧ d > 0 then
            tbl1 v 12 + lg (s * s * s * s * s * s * F * piC * rd / 48)
          else tbl1 v 12) := by
  unfold molStep
  rw [if_neg hnb]
  constructor
  · show transPart lg F rd v _ _ _ v 8 = _
    unfold transPart
    split_ifs with h
    · rw [addTbl_get_ne _ _ _ _ _ _ (by norm_num), addTbl_get_same]
    · rfl
  · show transPart lg F rd v _ _ _ v 12 = _
    unfold transPart
    split_ifs with h
    · rw [addTbl_get_same, addTbl_get_ne _ _ _ _ _ _ (by norm_num)]
    · rfl

/-- The concrete sqrt stand-in of the C3 counterexample: it agrees with
the real square root on the two values it is applied to (4 and the
untouched sentinel 10000). -/
def c3sq : ℚ → ℚ := fun q => if q = 4 then 2 else if q = 10000 then 100 else 0

/-- Voxel table of the C3 counterexample: voxel 13 holds two molecules,
every other voxel is empty. -/
def c3tbl : ℕ → ℕ → ℚ := fun p c => if p = 13 ∧ c = 4 then 2 else 0

/-- Counterexample to claim C3 as stated: at the non-boundary voxel 13
two molecules sit at the same position (squared distance 0) with
quaternion angle 2, so the six-dimensional sentinel NNs is updated to 4
(strictly positive, square root 2 > 0) while NNd is never updated; the
claim demands that the six-dimensional term then be accumulated into
column 12, but the code accumulates nothing because its single gate
0 < sqrt(NNd) < 3 fails (sqrt(NNd) = 100). -/
theorem c3_counterexample :
    (sameScan c2ac (c2coords 13) (c2quarts 13) (cntOf 2) 0).2.1 = 4 ∧
    (sameScan c2ac (c2coords 13) (c2quarts 13) (cntOf 2) 0).1 = 10000 ∧
    c3sq 4 > 0 ∧
    molStep c2ac c3sq (fun q => q) 3 3 3 1 1 c2coords c2quarts 13 2 c3tbl 0
        13 12 = 0 ∧
    c3tbl 13 12 = 0 ∧
    molStep c2ac c3sq (fun q => q) 3 3 3 1 1 c2coords c2quarts 13 2 c3tbl 0
        13 12
      ≠ c3tbl 13 12 +
        (c3sq 4 * c3sq 4 * c3sq 4 * c3sq 4 * c3sq 4 * c3sq 4
          * 1 * piC * 1 / 48) := by
  have hcnt2 : cntOf 2 = 2 := by
    norm_num [cntOf]
    rfl
  have hsame : sameScan c2ac (c2coords 13) (c2quarts 13) (cntOf 2) 0
      = (10000, 4, 2) := by
    rw [hcnt2]
    norm_num [sameScan, nnUpdate3, molAt, ddOf, rROf, dist_squared,
      c2coords, c2quarts, c2ac, List.range_succ]
  have hb : ¬ boundaryPred 3 3 3 13 := by decide
  have hres : molStep c2ac c3sq (fun q => q) 3 3 3 1 1 c2coords c2quarts 13 2
      c3tbl 0 13 12 = 0 := by
    simp only [molStep]
    rw [hsame, if_neg hb]
    norm_num [nbrScan, nbrIdsZ, nbrOffsets, Int.toNat, cntOf, orientPart,
      transPart, addTbl, updTbl, c3tbl, c3sq, List.range_succ]
  refine ⟨by rw [hsame], by rw [hsame], by norm_num [c3sq], hres, by
    norm_num [c3tbl], ?_⟩
  rw [hres]
  norm_num [c3tbl, c3sq, piC]

/-- Witness for the amended C3 theorem at the non-boundary voxel 13 of an
empty 3x3x3 grid: nothing is accumulated (the sentinels stay 10000, and
sqrt is instantiated to the identity so the gate value is 10000,
outside (0,3)). -/
theorem c3_trans_six_single_gate_witness :
    ¬ boundaryPred 3 3 3 13 ∧
    molStep (fun q => q) (fun q => q) (fun q => q) 3 3 3 1 1
        (fun _ _ => 0) (fun _ _ => 0) 13 0 (fun _ _ => 0) 0 13 8 = 0 ∧
    molStep (fun q => q) (fun q => q) (fun q => q) 3 3 3 1 1
        (fun _ _ => 0) (fun _ _ => 0) 13 0 (fun _ _ => 0) 0 13 12 = 0 := by
  have hb : ¬ boundaryPred 3 3 3 13 := by decide
  have h := c3_trans_six_single_gate (fun q => q) (fun q => q) (fun q => q)
    3 3 3 1 1 (fun _ _ => 0) (fun _ _ => 0) 13 0 (fun _ _ => 0) 0 hb
  norm_num [sameScan, cntOf, orientPart, nbrScan, nbrIdsZ, nbrOffsets,
    Int.toNat, List.range_succ, molAt, addTbl, updTbl] at h
  exact ⟨hb, h.1, h.2⟩

lemma updTbl_get_ne_voxel {t : ℕ → ℕ → ℚ} {v c : ℕ} {q : ℚ} {v' c' : ℕ}
    (h : v' ≠ v) : updTbl t v c q v' c' = t v' c' :=
  updTbl_get_ne t v c q v' c' (fun hc => h hc.1)

lemma addTbl_get_ne_voxel {t : ℕ → ℕ → ℚ} {v c : ℕ} {q : ℚ} {v' c' : ℕ}
    (h : v' ≠ v) : addTbl t v c q v' c' = t v' c' :=
  updTbl_get_ne_voxel h

lemma orientPart_get_other {lg : ℚ → ℚ} {v : ℕ} {nw NNr : ℚ}
    {tbl : ℕ → ℕ → ℚ} {v' c' : ℕ} (h : v' ≠ v) :
    orientPart lg v nw NNr tbl v' c' = tbl v' c' := by
  unfold orientPart
  split_ifs
  · exact addTbl_get_ne_voxel h
  · rfl

lemma transPart_get_other {lg : ℚ → ℚ} {F : ℕ} {rd : ℚ} {v : ℕ}
    {NNd NNs : ℚ} {tbl : ℕ → ℕ → ℚ} {v' c' : ℕ} (h : v' ≠ v) :
    transPart lg F rd v NNd NNs tbl v' c' = tbl v' c' := by
  unfold transPart
  split_ifs
  · rw [addTbl_get_ne_voxel h, addTbl_get_ne_voxel h]
  · rfl

lemma molStep_get_other {ac sq lg : ℚ → ℚ} {nx ny nz F : ℕ} {rd : ℚ}
    {coords quarts : ℕ → ℕ → ℚ} {v : ℕ} {nw : ℚ} {tbl : ℕ → ℕ → ℚ}
    {n0 : ℕ} {v' c' : ℕ} (h : v' ≠ v) :
    molStep ac sq lg nx ny nz F rd coords quarts v nw tbl n0 v' c'
      = tbl v' c' := by
  unfold molStep
  by_cases hbd : boundaryPred nx ny nz v
  · rw [if_pos hbd]
    exact orientPart_get_other h
  · rw [if_neg hbd]
    show transPart _ _ _ _ _ _ _ v' c' = _
    rw [transPart_get_other h]
    exact orientPart_get_other h

lemma foldl_molStep_get_other {ac sq lg : ℚ → ℚ} {nx ny nz F : ℕ} {rd : ℚ}
    {coords quarts : ℕ → ℕ → ℚ} {v : ℕ} {nw : ℚ} {v' c' : ℕ}
    (h : v' ≠ v) :
    ∀ (L : List ℕ) (tbl : ℕ → ℕ → ℚ),
      (L.foldl (molStep ac sq lg nx ny nz F rd coords quarts v nw) tbl) v' c'
        = tbl v' c' := by
  intro L
  induction L with
  | nil => intro tbl; rfl
  | cons n0 L ih =>
      intro tbl
      rw [List.foldl_cons, ih]
      exact molStep_get_other h

lemma ite_app (c : Prop) [Decidable c] (t e : ℕ → ℕ → ℚ) (v' c' : ℕ) :
    (if c then t else e) v' c' = if c then t v' c' else e v' c' := by
  split_ifs <;> rfl

lemma voxelStep_get_other {ac sq lg : ℚ → ℚ} {nx ny nz F : ℕ}
    {voxel_vol rd temp : ℚ} {coords quarts : ℕ → ℕ → ℚ}
    {tbl : ℕ → ℕ → ℚ} {v : ℕ} {v' c' : ℕ} (h : v' ≠ v) :
    voxelStep ac sq lg nx ny nz F voxel_vol rd temp coords quarts tbl v v' c'
      = tbl v' c' := by
  unfold voxelStep
  simp only [ite_app, updTbl_get_ne_voxel h, addTbl_get_ne_voxel h,
    foldl_molStep_get_other h, ite_self]

lemma foldl_voxelStep_not_mem {ac sq lg : ℚ → ℚ} {nx ny nz F : ℕ}
    {voxel_vol rd temp : ℚ} {coords quarts : ℕ → ℕ → ℚ} {v' c' : ℕ} :
    ∀ (L : List ℕ) (tbl : ℕ → ℕ → ℚ), v' ∉ L →
      (L.foldl (voxelStep ac sq lg nx ny nz F voxel_vol rd temp coords quarts)
        tbl) v' c' = tbl v' c' := by
  intro L
  induction L with
  | nil => intro tbl _; rfl
  | cons w L ih =>
      intro tbl hmem
      rw [List.foldl_cons, ih _ (fun hc => hmem (List.mem_cons_of_mem w hc))]
      exact voxelStep_get_other (fun hc => hmem (hc ▸ List.mem_cons_self w L))

lemma voxelStep_zero_count (ac sq lg : ℚ → ℚ) (nx ny nz F : ℕ)
    (voxel_vol rd temp : ℚ) (coords quarts : ℕ → ℕ → ℚ)
    (tbl : ℕ → ℕ → ℚ) (v : ℕ) (h4 : tbl v 4 = 0) (h8 : tbl v 8 = 0)
    (h9 : tbl v 9 = 0) (h10 : tbl v 10 = 0) (h12 : tbl v 12 = 0) :
    (voxelStep ac sq lg nx ny nz F voxel_vol rd temp coords quarts tbl v) v 7
        = 0 ∧
      (voxelStep ac sq lg nx ny nz F voxel_vol rd temp coords quarts tbl v)
        v 8 = 0 ∧
      (voxelStep ac sq lg nx ny nz F voxel_vol rd temp coords quarts tbl v)
        v 9 = 0 ∧
      (voxelStep ac sq lg nx ny nz F voxel_vol rd temp coords quarts tbl v)
        v 10 = 0 ∧
      (voxelStep ac sq lg nx ny nz F voxel_vol rd temp coords quarts tbl v)
        v 11 = 0 ∧
      (voxelStep ac sq lg nx ny nz F voxel_vol rd temp coords quarts tbl v)
        v 12 = 0 := by
  have hcnt : cntOf (tbl v 4) = 0 := by rw [h4]; rfl
  unfold voxelStep
  rw [hcnt]
  simp only [List.range_zero, List.foldl_nil]
  have ht1 : ∀ (q : ℚ) c', c' ≠ 5 → addTbl tbl v 5 q v c' = tbl v c' :=
    fun q c' hc => addTbl_get_ne _ _ _ _ _ _ (fun hx => hc hx.2)
  rw [ht1 _ 8 (by norm_num), ht1 _ 10 (by norm_num), ht1 _ 12 (by norm_num),
    h8, h10, h12]
  simp only [ne_eq, not_true_eq_false, if_neg, if_false]
  have hup7ne : ∀ (t : ℕ → ℕ → ℚ) (q : ℚ) c', c' ≠ 7 →
      updTbl t v 7 q v c' = t v c' :=
    fun t q c' hc => updTbl_get_ne _ _ _ _ _ _ (fun hx => hc hx.2)
  have hup11ne : ∀ (t : ℕ → ℕ → ℚ) (q : ℚ) c', c' ≠ 11 →
      updTbl t v 11 q v c' = t v c' :=
    fun t q c' hc => updTbl_get_ne _ _ _ _ _ _ (fun hx => hc hx.2)
  refine ⟨?_, ?_, ?_, ?_, ?_, ?_⟩
  · rw [hup11ne _ _ 7 (by norm_num), updTbl_get_same,
      ht1 _ 8 (by norm_num), h8]
    ring
  · rw [hup11ne _ _ 8 (by norm_num), hup7ne _ _ 8 (by norm_num),
      ht1 _ 8 (by norm_num), h8]
  · rw [hup11ne _ _ 9 (by norm_num), hup7ne _ _ 9 (by norm_num),
      ht1 _ 9 (by norm_num), h9]
  · rw [hup11ne _ _ 10 (by norm_num), hup7ne _ _ 10 (by norm_num),
      ht1 _ 10 (by norm_num), h10]
  · rw [updTbl_get_same]
    rw [hup7ne _ _ 12 (by norm_num), ht1 _ 12 (by norm_num), h12, h4]
    ring
  · rw [hup11ne _ _ 12 (by norm_num), hup7ne _ _ 12 (by norm_num),
      ht1 _ 12 (by norm_num), h12]

/-- Claim C6: a voxel whose molecule count (column 4) is zero, starting
with zero entropy sums (columns 8, 10, 12) and zero orientational
density (column 9), contributes nothing in the combined estimator: after
the full grid pass its entropy sums are still zero (never accumulated
into, and the kB·T normalisation guarded by the sums being nonzero is
skipped, so the count is never divided by), and its volumetric entropy
densities (columns 7, 9, 11) are zero. -/
theorem c6_zero_count_voxel (ac sq lg : ℚ → ℚ) (F : ℕ)
    (voxel_vol rd temp : ℚ) (nx ny nz : ℕ) (tbl coords quarts : ℕ → ℕ → ℚ)
    (v : ℕ) (hv : v < nx * ny * nz) (h4 : tbl v 4 = 0) (h8 : tbl v 8 = 0)
    (h9 : tbl v 9 = 0) (h10 : tbl v 10 = 0) (h12 : tbl v 12 = 0) :
    getNNTrEntropy ac sq lg F voxel_vol rd temp nx ny nz tbl coords quarts v 7
        = 0 ∧
      getNNTrEntropy ac sq lg F voxel_vol rd temp nx ny nz tbl coords quarts
        v 8 = 0 ∧
      getNNTrEntropy ac sq lg F voxel_vol rd temp nx ny nz tbl coords quarts
        v 9 = 0 ∧
      getNNTrEntropy ac sq lg F voxel_vol rd temp nx ny nz tbl coords quarts
        v 10 = 0 ∧
      getNNTrEntropy ac sq lg F voxel_vol rd temp nx ny nz tbl coords quarts
        v 11 = 0 ∧
      getNNTrEntropy ac sq lg F voxel_vol rd temp nx ny nz tbl coords quarts
        v 12 = 0 := by
  unfold getNNTrEntropy
  have hsplit : List.range (nx * ny * nz)
      = List.range v ++ (List.range (nx * ny * nz - v)).map (v + ·) := by
    rw [← List.range_add]
    congr 1
    omega
  rw [hsplit]
  have hpos : nx * ny * nz - v = 1 + (nx * ny * nz - v - 1) := by omega
  rw [hpos, List.range_add, List.map_append, List.foldl_append,
    List.foldl_append]
  have hr1 : (List.range 1).map (v + ·) = [v] := by
    have : List.range 1 = [0] := rfl
    rw [this]
    simp
  rw [hr1]
  set tblA := (List.range v).foldl
    (voxelStep ac sq lg nx ny nz F voxel_vol rd temp coords quarts) tbl
    with htblA
  have hA : ∀ c', tblA v c' = tbl v c' := by
    intro c'
    rw [htblA]
    exact foldl_voxelStep_not_mem _ _ (by simp)
  have hstep := voxelStep_zero_count ac sq lg nx ny nz F voxel_vol rd temp
    coords quarts tblA v (by rw [hA]; exact h4) (by rw [hA]; exact h8)
    (by rw [hA]; exact h9) (by rw [hA]; exact h10) (by rw [hA]; exact h12)
  have hnm : v ∉ ((List.range (nx * ny * nz - v - 1)).map (1 + ·)).map
      (v + ·) := by
    simp only [List.mem_map, List.mem_range, not_exists, not_and]
    intro a ha hb
    omega
  refine ⟨?_, ?_, ?_, ?_, ?_, ?_⟩ <;>
    · rw [foldl_voxelStep_not_mem _ _ hnm]
      simp only [List.foldl_cons, List.foldl_nil]
      first
        | exact hstep.1
        | exact hstep.2.1
        | exact hstep.2.2.1
        | exact hstep.2.2.2.1
        | exact hstep.2.2.2.2.1
        | exact hstep.2.2.2.2.2

/-- Witness for C6: on a 1x1x1 grid with an all-zero table, the single
voxel's entropy columns are all zero after the pass. -/
theorem c6_zero_count_voxel_witness :
    getNNTrEntropy (fun q => q) (fun q => q) (fun q => q) 1 1 1 1 1 1 1
        (fun _ _ => 0) (fun _ _ => 0) (fun _ _ => 0) 0 7 = 0 ∧
      getNNTrEntropy (fun q => q) (fun q => q) (fun q => q) 1 1 1 1 1 1 1
        (fun _ _ => 0) (fun _ _ => 0) (fun _ _ => 0) 0 8 = 0 := by
  have h := c6_zero_count_voxel (fun q => q) (fun q => q) (fun q => q) 1 1 1 1
    1 1 1 (fun _ _ => 0) (fun _ _ => 0) (fun _ _ => 0) 0 (by norm_num) rfl
    rfl rfl rfl rfl
  exact ⟨h.1, h.2.1⟩

end SSTMap
